import Mathlib

/-!
# qe-compiler: ReorderMeasurements and MergeDelays

A shallow embedding of the rewrite pattern `ReorderMeasureAndNonMeasurePat`
(`lib/Dialect/QUIR/Transforms/ReorderMeasurements.cpp`) over a block that is a
list of operations, together with the greedy driver that the pass hands the
pattern to, and of the delay-merging rule of `MergeDelayPass`.

A block is a `List Operation` in program order.  A pointer to an operation of
the block (the `measureOp` of the pattern) is the split of the block around
it: the operations before it, the operation, the operations after it.
-/

namespace quir

/-! ## Operations -/

/-- What the pattern reads off an `mlir::Operation`: its identity (the pointer),
the set returned by `getOperatedQubits`, the two traits queried at lines 57-58
and whether it is a `MeasureOp` (the root kind of the pattern, line 37). -/
structure Operation where
  id : Nat
  qubits : List Nat
  hasTraitCPTPOp : Bool
  hasTraitRegionBranch : Bool
  isMeasureOp : Bool
deriving DecidableEq, Repr

/-- Result of a pattern application (`mlir::LogicalResult`). -/
inductive LogicalResult where
  | success
  | failure
deriving DecidableEq, Repr

/-- Modelled from the spec: `QubitOpInterface::opsShareQubits` is declared in
`Dialect/QUIR/IR/QUIRInterfaces.h`, which is not among the sources.  Spec 4.1:
`conflicts(a, b)` is true iff `resources(a) ∩ resources(b) ≠ ∅`. -/
def opsShareQubits (lhs rhs : Operation) : Bool :=
  lhs.qubits.any (fun q => rhs.qubits.contains q)

/-- Modelled from the spec: the operations the forward scan stops at because
they are resource-bearing (spec 4.5 step 1: "touches ≥1 resource"). -/
def isQuantumOp (op : Operation) : Bool :=
  !op.qubits.isEmpty

/-- Modelled from the spec: `nextQuantumOrControlFlowOrNull` is declared in
`Dialect/QUIR/Utils/Utils.h`, which is not among the sources.  Spec 4.5 step 1:
scan forward in program order for the first operation that is either
resource-bearing or a control-flow boundary; operations with no resource
footprint and no control-flow role are skipped.  The argument is the part of
the block after the starting operation; the result is the split of that part
around the operation found: the skipped operations, the operation, the
operations after it.  `none` is the null result. -/
def nextQuantumOrControlFlowOrNull :
    List Operation → Option (List Operation × Operation × List Operation)
  | [] => none
  | op :: tl =>
    if isQuantumOp op || op.hasTraitRegionBranch then some ([], op, tl)
    else
      match nextQuantumOrControlFlowOrNull tl with
      | none => none
      | some (skipped, nextOp, after) => some (op :: skipped, nextOp, after)

/-! ## The pattern -/

/-- One pass through the body of the do-while loop (lines 45-76) with the
measurement `measureOp` standing between `pre` and `rest`.  `none` is a
`break`; `some (pre', rest')` is the block after `nextOp->moveBefore(measureOp)`:
`nextOp` leaves its place in `rest` and becomes the last operation before the
measurement. -/
def loopBody (measureOp : Operation) (pre rest : List Operation) :
    Option (List Operation × List Operation) :=
  match nextQuantumOrControlFlowOrNull rest with
  | none => none
  | some (skipped, nextOp, after) =>
    if nextOp.hasTraitCPTPOp || nextOp.hasTraitRegionBranch then none
    else if opsShareQubits measureOp nextOp then none
    else some (pre ++ [nextOp], skipped ++ after)

/-- The do-while loop of `matchAndRewrite` (lines 43-77), carrying `anyMove`.
The first argument bounds the number of passes through the body; `none` means
that the bound was used up before a `break`. -/
def matchAndRewriteLoop (measureOp : Operation) :
    Nat → List Operation → List Operation → Bool →
      Option (List Operation × List Operation × Bool)
  | 0, _, _, _ => none
  | fuel + 1, pre, rest, anyMove =>
    match loopBody measureOp pre rest with
    | none => some (pre, rest, anyMove)
    | some (pre', rest') => matchAndRewriteLoop measureOp fuel pre' rest' true

/-- Block around the measurement after the pattern ran, and what it returned. -/
structure RewriteResult where
  pre : List Operation
  rest : List Operation
  result : LogicalResult
deriving DecidableEq, Repr

/-- The method `ReorderMeasureAndNonMeasurePat::matchAndRewrite` (lines 41-83) on the block
`pre ++ measureOp :: rest`.  The loop is given one more pass than there are
operations after the measurement, which it never uses up
(`matchAndRewriteLoop_isSome`), so the last arm is never taken. -/
def matchAndRewrite (measureOp : Operation) (pre rest : List Operation) : RewriteResult :=
  match matchAndRewriteLoop measureOp (rest.length + 1) pre rest false with
  | some (pre', rest', anyMove) =>
    ⟨pre', rest', if anyMove then LogicalResult.success else LogicalResult.failure⟩
  | none => ⟨pre, rest, LogicalResult.failure⟩

/-- The block around a measurement, as one sequence. -/
def RewriteResult.block (measureOp : Operation) (r : RewriteResult) : List Operation :=
  r.pre ++ measureOp :: r.rest

/-- State after `k` moves: `k` passes through the loop body, none of them a
`break`. -/
def movesFrom (measureOp : Operation) :
    Nat → List Operation → List Operation → Option (List Operation × List Operation)
  | 0, pre, rest => some (pre, rest)
  | k + 1, pre, rest =>
    match loopBody measureOp pre rest with
    | none => none
    | some (pre', rest') => movesFrom measureOp k pre' rest'

/-! ## Order of two operations in a block -/

/-- Operation `a` occurs before operation `b` in the block. -/
def Precedes (block : List Operation) (a b : Operation) : Prop :=
  List.Sublist [a, b] block

instance (block : List Operation) (a b : Operation) : Decidable (Precedes block a b) := by
  unfold Precedes
  infer_instance

/-- An operation the forward scan skips: no qubit footprint and no control-flow
role. -/
def isSkipped (op : Operation) : Bool :=
  !(isQuantumOp op || op.hasTraitRegionBranch)

/-- An operation that stops the measurement `measureOp` when the scan finds it:
a CPTP operation, a control-flow operation, or one sharing a qubit. -/
def blocks (measureOp op : Operation) : Bool :=
  !isSkipped op &&
    (op.hasTraitCPTPOp || op.hasTraitRegionBranch || opsShareQubits measureOp op)

/-- An operation the loop moves when the scan finds it. -/
def movable (measureOp op : Operation) : Bool :=
  !isSkipped op && !blocks measureOp op

/-- The pairs whose order a move can change: `moved` is an operation the loop
moves, and `stay` is the measurement itself or an operation the scan skips on
its way to `moved`. -/
def mayCross (measureOp stay moved : Operation) : Bool :=
  movable measureOp moved && (decide (stay = measureOp) || isSkipped stay)

/-- Number of operations strictly between the measurement and the nearest
blocking operation (or the end of the block). -/
def window (measureOp : Operation) (rest : List Operation) : Nat :=
  (rest.takeWhile (fun op => !blocks measureOp op)).length

end quir

/-! ## The greedy driver -/

namespace greedy

variable {α : Type}

/-- A rewrite rule offered an anchor: the block and the position of the anchor
in it; `some block'` is the block after the rule's action, `none` is "no
match". -/
abbrev Rule (α : Type) := List α → Nat → Option (List α)

/-- Modelled from the spec: the driver offers the rule the anchor at position
`i` (spec 4.3): on a match the action is applied at once and `Changed` is
marked; the state is the block and the `Changed` mark. -/
def sweepStep (rule : Rule α) (st : List α × Bool) (i : Nat) : List α × Bool :=
  match rule st.1 i with
  | some block' => (block', true)
  | none => st

/-- Modelled from the spec: one whole-block pass of the greedy rewrite driver
(`applyPatternsAndFoldGreedily` belongs to MLIR and is not among the sources).
Spec 4.3: the driver iterates the anchors in current program order, asks the
rule for a match at each, applies a match at once, so that later anchors see
the changed block, and marks `Changed`. -/
def sweep (rule : Rule α) (block : List α) : List α × Bool :=
  (List.range block.length).foldl (sweepStep rule) (block, false)

/-- Modelled from the spec: the greedy rewrite driver.  Spec 4.3: whole-block
passes are repeated until one full pass yields no match; spec 7: a hard cap on
the number of passes guards against non-convergence.  `none` is the driver's
failure: the cap was reached while the block was still changing. -/
def applyPatternsGreedily (rule : Rule α) : Nat → List α → Option (List α)
  | 0, _ => none
  | maxIterations + 1, block =>
    match sweep rule block with
    | (block', true) => applyPatternsGreedily rule maxIterations block'
    | (block', false) => some block'

end greedy

namespace quir

/-- The pattern offered the operation at position `i` of the block.  It is an
`OpRewritePattern<MeasureOp>` (line 37): it is tried on `MeasureOp`s only, and
the driver takes the rewritten block when it returns success. -/
def applyPattern : greedy.Rule Operation := fun block i =>
  match block.drop i with
  | [] => none
  | measureOp :: rest =>
    if measureOp.isMeasureOp then
      match (matchAndRewrite measureOp (block.take i) rest).result with
      | LogicalResult.success =>
        some ((matchAndRewrite measureOp (block.take i) rest).block measureOp)
      | LogicalResult.failure => none
    else none

/-- The method `ReorderMeasurementsPass::runOnOperation` (lines 87-96): the pattern is
handed to the greedy driver; `none` is `signalPassFailure()`, taken when the
driver fails.  `maxIterations` is the driver's cap. -/
def ReorderMeasurementsPass.runOnOperation (maxIterations : Nat) (block : List Operation) :
    Option (List Operation) :=
  greedy.applyPatternsGreedily applyPattern maxIterations block

end quir

namespace quir

/-- Number of pairs of a CPTP operation and a later operation that is not
CPTP: the quantity that every move of the pattern at a CPTP anchor lowers. -/
def inversions : List Operation → Nat
  | [] => 0
  | op :: tl =>
    (if op.hasTraitCPTPOp then tl.countP (fun o => !o.hasTraitCPTPOp) else 0) + inversions tl

/-- Every `MeasureOp` of the block carries the `CPTPOp` trait (the comment at
line 56 counts the measurements among the operations the check of line 57
stops at). -/
def MeasuresAreCPTP (block : List Operation) : Prop :=
  ∀ op ∈ block, op.isMeasureOp = true → op.hasTraitCPTPOp = true

end quir

/-! ## The operations of the spec's scenarios -/

namespace quir

/-- A measurement on the given qubits: a `MeasureOp`, which is a CPTP operation. -/
def Measure (id : Nat) (qubits : List Nat) : Operation := ⟨id, qubits, true, false, true⟩

/-- A reset on the given qubits: CPTP, not a `MeasureOp`. -/
def Reset (id : Nat) (qubits : List Nat) : Operation := ⟨id, qubits, true, false, false⟩

/-- A gate on the given qubits: neither CPTP nor control flow. -/
def Gate (id : Nat) (qubits : List Nat) : Operation := ⟨id, qubits, false, false, false⟩

/-- A control-flow (region-branch) operation with the given qubit footprint. -/
def Barrier (id : Nat) (qubits : List Nat) : Operation := ⟨id, qubits, false, true, false⟩

/-- An operation with no qubit footprint and no control-flow role. -/
def Classical (id : Nat) : Operation := ⟨id, [], false, false, false⟩

end quir

/-! ## The closed form of one application of the pattern -/

namespace quir

/-- The window in front of the measurement: the longest prefix of the
operations after it that contains no qubit-bearing CPTP operation, no
control-flow operation and no operation sharing a qubit with it. -/
def reorderWindow (measureOp : Operation) (rest : List Operation) : List Operation :=
  rest.takeWhile (fun op =>
    !(isQuantumOp op && op.hasTraitCPTPOp) && !op.hasTraitRegionBranch &&
      !opsShareQubits measureOp op)

/-- The window as C11 words it: the longest prefix of the operations after the
measurement that contains no CPTP operation, no control-flow operation and no
operation sharing a qubit with it. -/
def claimedWindow (measureOp : Operation) (rest : List Operation) : List Operation :=
  rest.takeWhile (fun op =>
    !op.hasTraitCPTPOp && !op.hasTraitRegionBranch && !opsShareQubits measureOp op)

/-- Well-formed input for the closed form: every CPTP operation (a measurement
or a reset) operates on at least one qubit.  Spec 3 and 7: an operation with
such a trait tag and an empty resource list is malformed input, which the
engine does not proceed on. -/
def CPTPOpsBearQubits (block : List Operation) : Prop :=
  ∀ op ∈ block, op.hasTraitCPTPOp = true → isQuantumOp op = true

/-- The block that the closed form of C11 describes for a window `W`, a prefix
of `rest`: the operations before the measurement, the qubit-bearing operations
of `W` in their order, the measurement, and `rest` without those operations. -/
def closedForm (W : List Operation) (measureOp : Operation) (pre rest : List Operation) :
    List Operation :=
  pre ++ W.filter isQuantumOp ++
    measureOp :: (W.filter (fun op => !isQuantumOp op) ++ rest.drop W.length)

/-! ## The annotation pass of the qubit interface test -/

/-- Conversion of a 32-bit `uint` to `int`, as done when the `std::vector<int>`
is built from the `std::set<uint>` (line 36 of `QUIRTestInterfaces.cpp`): the
value modulo `2^32`, read in two's complement. -/
def toInt32 (u : Nat) : Int :=
  if u % 2 ^ 32 < 2 ^ 31 then ((u % 2 ^ 32 : Nat) : Int)
  else ((u % 2 ^ 32 : Nat) : Int) - 2 ^ 32

/-- Modelled from the spec: `QubitOpInterface::getOperatedQubits` is declared in
`Dialect/QUIR/IR/QUIRInterfaces.h`, which is not among the sources.  It returns
the operated resources of the operation (spec 3) as a `std::set<uint>`; the
list is the set from `begin()` to `end()`: ascending, each id once. -/
def getOperatedQubits (op : Operation) : List Nat :=
  (op.qubits.dedup).insertionSort (fun a b => a ≤ b)

/-- The body of the walk of `TestQubitOpInterfacePass::runOnOperation` (lines
35-39 of `QUIRTestInterfaces.cpp`) for one operation: the operated qubits are
copied into a vector of `int`, the vector is sorted with `std::sort`, and the
result is the value of the attribute `quir.operatedQubits`. -/
def operatedQubitsAttr (op : Operation) : List Int :=
  ((getOperatedQubits op).map toInt32).insertionSort (fun a b => a ≤ b)

/-- The pass `TestQubitOpInterfacePass::runOnOperation` (lines 28-41 of
`QUIRTestInterfaces.cpp`) on the operations of a block: each operation with the
value of the attribute set on it. -/
def TestQubitOpInterfacePass.runOnOperation (block : List Operation) :
    List (Operation × List Int) :=
  block.map (fun op => (op, operatedQubitsAttr op))

end quir

/-! ## Merging delays -/

namespace pulse

/-- Modelled from the spec: the trait tag of an operation (spec 3). -/
inductive TraitTag where
  | Irreversible
  | ControlFlowBoundary
  | Plain
deriving DecidableEq, Repr

/-- Modelled from the spec: an operation as spec 3 describes it: identity, the
resources it operates on, its trait tag and its payload, which for a delay
operation is the duration (`none` for an operation that is not a delay).
`MergeDelays.h` declares the pass only; the operations it works on are not
among the sources. -/
structure Operation where
  id : Nat
  resources : List Nat
  tag : TraitTag
  delay : Option Nat
deriving DecidableEq, Repr

/-- Modelled from the spec: the resource-conflict oracle (spec 4.1):
`conflicts(a, b)` is true iff `resources(a) ∩ resources(b) ≠ ∅`. -/
def conflicts (a b : Operation) : Bool :=
  a.resources.any (fun r => b.resources.contains r)

/-- Modelled from the spec: the resource set of `b` "equals `resources(a)`
exactly" (spec 4.4), as sets. -/
def sameResources (a b : Operation) : Bool :=
  a.resources.all (fun r => b.resources.contains r) &&
    b.resources.all (fun r => a.resources.contains r)

/-- Modelled from the spec: "the next operation in program order that touches
any resource in `resources(d1)`" (spec 4.4), searched in the operations after
`d1`; the result is the split around it. -/
def nextTouching (d1 : Operation) :
    List Operation → Option (List Operation × Operation × List Operation)
  | [] => none
  | op :: tl =>
    if conflicts d1 op then some ([], op, tl)
    else
      match nextTouching d1 tl with
      | none => none
      | some (between, d2, after) => some (op :: between, d2, after)

/-- Modelled from the spec: the merge rule at the delay `d1` of duration `dur1`
followed by `rest` (spec 4.4; the body of `MergeDelayPass` is not among the
sources).  It matches when the next operation touching a resource of `d1` is a
delay `d2` on exactly the resources of `d1` with no control-flow boundary
between them; the action `MergeInto(d1, d2)` leaves one delay of duration
`duration(d1) + duration(d2)` at the position of `d1` and deletes `d2`.  The
result is the merged delay and the operations after it. -/
def mergeInto (d1 : Operation) (dur1 : Nat) (rest : List Operation) :
    Option (Operation × List Operation) :=
  match nextTouching d1 rest with
  | none => none
  | some (between, d2, after) =>
    match d2.delay with
    | none => none
    | some dur2 =>
      if sameResources d1 d2 &&
          between.all (fun op => decide (op.tag ≠ TraitTag.ControlFlowBoundary)) then
        some ({ d1 with delay := some (dur1 + dur2) }, between ++ after)
      else none

/-- Modelled from the spec: the merge rule offered the operation at position `i`
of the block (spec 4.4: the anchor is any delay operation; no match is a
no-op). -/
def mergeRule : greedy.Rule Operation := fun block i =>
  match block.drop i with
  | [] => none
  | d1 :: rest =>
    match d1.delay with
    | none => none
    | some dur1 =>
      match mergeInto d1 dur1 rest with
      | none => none
      | some (merged, rest') => some (block.take i ++ merged :: rest')

/-- Modelled from the spec: `MergeDelayPass::runOnOperation`, declared at line 27
of `MergeDelays.h`: the merge rule run by the greedy driver (spec 2, 4.3). -/
def MergeDelayPass.runOnOperation (maxIterations : Nat) (block : List Operation) :
    Option (List Operation) :=
  greedy.applyPatternsGreedily mergeRule maxIterations block

/-- The delay of the spec's scenario: `Delay(resources, duration)`. -/
def Delay (id : Nat) (resources : List Nat) (duration : Nat) : Operation :=
  ⟨id, resources, TraitTag.Plain, some duration⟩

/-- The measurement of the spec's scenario. -/
def Measure (id : Nat) (resources : List Nat) : Operation :=
  ⟨id, resources, TraitTag.Irreversible, none⟩

end pulse

/-! ## Facts about the scan and the loop body -/

namespace quir

theorem nextQuantumOrControlFlowOrNull_some :
    ∀ (rest skipped : List Operation) (nextOp : Operation) (after : List Operation),
      nextQuantumOrControlFlowOrNull rest = some (skipped, nextOp, after) →
        rest = skipped ++ nextOp :: after ∧ (∀ t ∈ skipped, isSkipped t = true) ∧
          isSkipped nextOp = false := by
  intro rest
  induction rest with
  | nil => intro sk n af h; simp [nextQuantumOrControlFlowOrNull] at h
  | cons x xs ih =>
    intro sk n af h
    simp only [nextQuantumOrControlFlowOrNull] at h
    by_cases hx : (isQuantumOp x || x.hasTraitRegionBranch) = true
    · rw [if_pos hx] at h
      simp only [Option.some.injEq, Prod.mk.injEq] at h
      obtain ⟨rfl, rfl, rfl⟩ := h
      simp [isSkipped, hx]
    · rw [if_neg hx] at h
      cases hq : nextQuantumOrControlFlowOrNull xs with
      | none => simp [hq] at h
      | some v =>
        obtain ⟨sk', n', af'⟩ := v
        simp only [hq, Option.some.injEq, Prod.mk.injEq] at h
        obtain ⟨rfl, rfl, rfl⟩ := h
        obtain ⟨h1, h2, h3⟩ := ih sk' n' af' hq
        refine ⟨by simp [h1], ?_, h3⟩
        intro t ht
        rcases List.mem_cons.mp ht with rfl | ht
        · simpa [isSkipped] using hx
        · exact h2 t ht

theorem nextQuantumOrControlFlowOrNull_none :
    ∀ (rest : List Operation), nextQuantumOrControlFlowOrNull rest = none →
      ∀ t ∈ rest, isSkipped t = true := by
  intro rest
  induction rest with
  | nil => intro _ t ht; simp at ht
  | cons x xs ih =>
    intro h t ht
    simp only [nextQuantumOrControlFlowOrNull] at h
    by_cases hx : (isQuantumOp x || x.hasTraitRegionBranch) = true
    · rw [if_pos hx] at h; simp at h
    · rw [if_neg hx] at h
      cases hq : nextQuantumOrControlFlowOrNull xs with
      | none =>
        rcases List.mem_cons.mp ht with rfl | ht
        · simpa [isSkipped] using hx
        · exact ih hq t ht
      | some v => obtain ⟨sk', n', af'⟩ := v; simp [hq] at h

/-- The scan finds the first operation that is not skipped. -/
theorem nextQuantumOrControlFlowOrNull_append (skipped : List Operation) (nextOp : Operation)
    (after : List Operation) (hsk : ∀ t ∈ skipped, isSkipped t = true)
    (hn : isSkipped nextOp = false) :
    nextQuantumOrControlFlowOrNull (skipped ++ nextOp :: after) = some (skipped, nextOp, after) := by
  induction skipped with
  | nil =>
    have : (isQuantumOp nextOp || nextOp.hasTraitRegionBranch) = true := by
      unfold isSkipped at hn
      cases hv : (isQuantumOp nextOp || nextOp.hasTraitRegionBranch)
      · rw [hv] at hn; simp at hn
      · rfl
    simp [nextQuantumOrControlFlowOrNull, this]
  | cons x xs ih =>
    have hx : ¬ (isQuantumOp x || x.hasTraitRegionBranch) = true := by
      have := hsk x (List.mem_cons_self _ _)
      simpa [isSkipped] using this
    have := ih (fun t ht => hsk t (List.mem_cons_of_mem _ ht))
    show nextQuantumOrControlFlowOrNull (x :: (xs ++ nextOp :: after)) = _
    simp only [nextQuantumOrControlFlowOrNull, if_neg hx, this]

theorem nextQuantumOrControlFlowOrNull_all_skipped (rest : List Operation)
    (h : ∀ t ∈ rest, isSkipped t = true) : nextQuantumOrControlFlowOrNull rest = none := by
  induction rest with
  | nil => rfl
  | cons x xs ih =>
    have hx : ¬ (isQuantumOp x || x.hasTraitRegionBranch) = true := by
      have := h x (List.mem_cons_self _ _)
      simpa [isSkipped] using this
    have := ih (fun t ht => h t (List.mem_cons_of_mem _ ht))
    simp only [nextQuantumOrControlFlowOrNull, if_neg hx, this]

/-- A pass through the body that moves: the operation found is movable, it is
appended to the operations before the measurement and leaves the rest. -/
theorem loopBody_some (m : Operation) (pre rest pre' rest' : List Operation)
    (h : loopBody m pre rest = some (pre', rest')) :
    ∃ skipped nextOp after, nextQuantumOrControlFlowOrNull rest = some (skipped, nextOp, after) ∧
      rest = skipped ++ nextOp :: after ∧ (∀ t ∈ skipped, isSkipped t = true) ∧
      movable m nextOp = true ∧ pre' = pre ++ [nextOp] ∧ rest' = skipped ++ after := by
  unfold loopBody at h
  cases hq : nextQuantumOrControlFlowOrNull rest with
  | none => simp [hq] at h
  | some v =>
    obtain ⟨sk, n, af⟩ := v
    simp only [hq] at h
    obtain ⟨h1, h2, h3⟩ := nextQuantumOrControlFlowOrNull_some rest sk n af hq
    by_cases hc : (n.hasTraitCPTPOp || n.hasTraitRegionBranch) = true
    · simp [hc] at h
    · rw [if_neg hc] at h
      by_cases hs : opsShareQubits m n = true
      · simp [hs] at h
      · rw [if_neg hs] at h
        simp only [Option.some.injEq, Prod.mk.injEq] at h
        refine ⟨sk, n, af, rfl, h1, h2, ?_, h.1.symm, h.2.symm⟩
        simp only [Bool.or_eq_true, not_or, Bool.not_eq_true] at hc
        simp only [Bool.not_eq_true] at hs
        simp [movable, blocks, h3, hc.1, hc.2, hs]

/-- A pass through the body that breaks: the scan found nothing, or what it
found blocks the measurement. -/
theorem loopBody_none (m : Operation) (pre rest : List Operation)
    (h : loopBody m pre rest = none) :
    nextQuantumOrControlFlowOrNull rest = none ∨
      ∃ skipped nextOp after, nextQuantumOrControlFlowOrNull rest = some (skipped, nextOp, after) ∧
        blocks m nextOp = true := by
  unfold loopBody at h
  cases hq : nextQuantumOrControlFlowOrNull rest with
  | none => exact Or.inl rfl
  | some v =>
    obtain ⟨sk, n, af⟩ := v
    right
    simp only [hq] at h
    obtain ⟨_, _, h3⟩ := nextQuantumOrControlFlowOrNull_some rest sk n af hq
    refine ⟨sk, n, af, rfl, ?_⟩
    by_cases hc : (n.hasTraitCPTPOp || n.hasTraitRegionBranch) = true
    · simp only [Bool.or_eq_true] at hc
      rcases hc with hc | hc <;> simp [blocks, h3, hc]
    · rw [if_neg hc] at h
      by_cases hs : opsShareQubits m n = true
      · simp [blocks, h3, hs]
      · rw [if_neg hs] at h; simp at h

/-- The break does not depend on what stands before the measurement. -/
theorem loopBody_none_pre (m : Operation) (pre pre' rest : List Operation)
    (h : loopBody m pre rest = none) : loopBody m pre' rest = none := by
  unfold loopBody at h ⊢
  cases hq : nextQuantumOrControlFlowOrNull rest with
  | none => rfl
  | some v =>
    obtain ⟨sk, n, af⟩ := v
    simp only [hq] at h ⊢
    by_cases hc : (n.hasTraitCPTPOp || n.hasTraitRegionBranch) = true
    · simp [hc]
    · rw [if_neg hc] at h ⊢
      by_cases hs : opsShareQubits m n = true
      · simp [hs]
      · rw [if_neg hs] at h; simp at h

end quir

/-! ## The loop ends, and what it computes -/

namespace quir

theorem loopBody_length (m : Operation) (pre rest pre' rest' : List Operation)
    (h : loopBody m pre rest = some (pre', rest')) :
    rest'.length + 1 = rest.length ∧ pre'.length = pre.length + 1 := by
  obtain ⟨sk, n, af, _, h1, _, _, h2, h3⟩ := loopBody_some m pre rest pre' rest' h
  subst h1 h2 h3
  simp
  omega

/-- With more passes allowed than there are operations after the measurement,
the loop reaches a `break` after `k` moves, `k` at most the number of those
operations, and `anyMove` is set exactly when `k` is positive. -/
theorem matchAndRewriteLoop_spec (m : Operation) :
    ∀ (fuel : Nat) (pre rest : List Operation) (anyMove : Bool), rest.length < fuel →
      ∃ k pre' rest', k ≤ rest.length ∧ movesFrom m k pre rest = some (pre', rest') ∧
        loopBody m pre' rest' = none ∧
        matchAndRewriteLoop m fuel pre rest anyMove = some (pre', rest', anyMove || decide (0 < k)) := by
  intro fuel
  induction fuel with
  | zero => intro pre rest b h; omega
  | succ fuel ih =>
    intro pre rest b h
    cases hb : loopBody m pre rest with
    | none =>
      refine ⟨0, pre, rest, Nat.zero_le _, rfl, hb, ?_⟩
      simp [matchAndRewriteLoop, hb]
    | some v =>
      obtain ⟨p1, r1⟩ := v
      have hl := loopBody_length m pre rest p1 r1 hb
      obtain ⟨k, p, r, hk, hm, hn, hr⟩ := ih p1 r1 true (by omega)
      refine ⟨k + 1, p, r, by omega, ?_, hn, ?_⟩
      · simp [movesFrom, hb, hm]
      · simp [matchAndRewriteLoop, hb, hr]

theorem matchAndRewriteLoop_isSome (m : Operation) (fuel : Nat) (pre rest : List Operation)
    (anyMove : Bool) (h : rest.length < fuel) :
    (matchAndRewriteLoop m fuel pre rest anyMove).isSome = true := by
  obtain ⟨k, p, r, _, _, _, hr⟩ := matchAndRewriteLoop_spec m fuel pre rest anyMove h
  simp [hr]

/-- What `matchAndRewrite` returns: the state after `k` moves, at which the
body breaks; success exactly when `k` is positive. -/
theorem matchAndRewrite_spec (m : Operation) (pre rest : List Operation) :
    ∃ k, k ≤ rest.length ∧
      movesFrom m k pre rest =
        some ((matchAndRewrite m pre rest).pre, (matchAndRewrite m pre rest).rest) ∧
      loopBody m (matchAndRewrite m pre rest).pre (matchAndRewrite m pre rest).rest = none ∧
      ((matchAndRewrite m pre rest).result = LogicalResult.success ↔ 0 < k) := by
  obtain ⟨k, p, r, hk, hm, hn, hr⟩ :=
    matchAndRewriteLoop_spec m (rest.length + 1) pre rest false (Nat.lt_succ_self _)
  refine ⟨k, hk, ?_⟩
  unfold matchAndRewrite
  rw [hr]
  refine ⟨hm, hn, ?_⟩
  by_cases h0 : 0 < k <;> simp [h0]

/-- A relation between blocks that holds across one move and is transitive
holds between the input and the state after any number of moves. -/
theorem movesFrom_induct (m : Operation)
    (R : List Operation → List Operation → List Operation → List Operation → Prop)
    (hrefl : ∀ pre rest, R pre rest pre rest)
    (hstep : ∀ pre rest pre1 rest1 p r, loopBody m pre rest = some (pre1, rest1) →
      R pre1 rest1 p r → R pre rest p r) :
    ∀ (k : Nat) (pre rest p r : List Operation),
      movesFrom m k pre rest = some (p, r) → R pre rest p r := by
  intro k
  induction k with
  | zero =>
    intro pre rest p r h
    simp only [movesFrom, Option.some.injEq, Prod.mk.injEq] at h
    obtain ⟨rfl, rfl⟩ := h
    exact hrefl _ _
  | succ k ih =>
    intro pre rest p r h
    cases hb : loopBody m pre rest with
    | none => simp [movesFrom, hb] at h
    | some v =>
      obtain ⟨p1, r1⟩ := v
      simp only [movesFrom, hb] at h
      exact hstep pre rest p1 r1 p r hb (ih p1 r1 p r h)

/-! ## Order of pairs -/

theorem pair_sublist_cons (a b x : Operation) (l : List Operation) :
    List.Sublist [a, b] (x :: l) ↔ List.Sublist [a, b] l ∨ (a = x ∧ b ∈ l) := by
  rw [List.sublist_cons_iff]
  constructor
  · rintro (h | ⟨r, hr, hs⟩)
    · exact Or.inl h
    · simp only [List.cons.injEq] at hr
      obtain ⟨rfl, rfl⟩ := hr
      exact Or.inr ⟨rfl, List.singleton_sublist.mp hs⟩
  · rintro (h | ⟨rfl, hb⟩)
    · exact Or.inl h
    · exact Or.inr ⟨[b], rfl, List.singleton_sublist.mpr hb⟩

theorem pair_sublist_append (a b : Operation) (l₁ l₂ : List Operation) :
    List.Sublist [a, b] (l₁ ++ l₂) ↔
      List.Sublist [a, b] l₁ ∨ (a ∈ l₁ ∧ b ∈ l₂) ∨ List.Sublist [a, b] l₂ := by
  induction l₁ with
  | nil => simp
  | cons x xs ih =>
    rw [List.cons_append, pair_sublist_cons, pair_sublist_cons, ih]
    simp only [List.mem_append, List.mem_cons]
    tauto

/-- In a block without repeated operations `Precedes` is the relative order:
two operations are not each before the other. -/
theorem precedes_asymm (block : List Operation) (hnd : block.Nodup) (a b : Operation)
    (hab : Precedes block a b) : ¬ Precedes block b a := by
  unfold Precedes at hab ⊢
  induction block with
  | nil => simp at hab
  | cons x xs ih =>
    have hx : x ∉ xs := (List.nodup_cons.mp hnd).1
    have hxs : xs.Nodup := (List.nodup_cons.mp hnd).2
    rw [pair_sublist_cons] at hab ⊢
    rintro (hba | ⟨rfl, ha⟩)
    · rcases hab with hab | ⟨rfl, _⟩
      · exact ih hxs hab hba
      · exact hx (hba.subset (by simp))
    · rcases hab with hab | ⟨rfl, hb⟩
      · exact hx (hab.subset (by simp))
      · exact hx ha

/-- Replacing a middle segment by one with the same members and the same
ordered pairs does not change which pairs are ordered. -/
theorem pair_sublist_middle (a b : Operation) (pre X Y after : List Operation)
    (hmem : ∀ x, x ∈ X ↔ x ∈ Y) (hpair : List.Sublist [a, b] X ↔ List.Sublist [a, b] Y) :
    List.Sublist [a, b] (pre ++ (X ++ after)) ↔ List.Sublist [a, b] (pre ++ (Y ++ after)) := by
  simp only [pair_sublist_append, List.mem_append, hmem, hpair]

/-- One move changes the order of a pair only if the pair may cross. -/
theorem precedes_move (m n a b : Operation) (pre skipped after : List Operation)
    (hn : movable m n = true) (hsk : ∀ t ∈ skipped, isSkipped t = true)
    (hab : mayCross m a b = false) (hba : mayCross m b a = false) :
    Precedes ((pre ++ [n]) ++ m :: (skipped ++ after)) a b ↔
      Precedes (pre ++ m :: (skipped ++ n :: after)) a b := by
  have e1 : (pre ++ [n]) ++ m :: (skipped ++ after) = pre ++ (([n] ++ (m :: skipped)) ++ after) := by
    simp
  have e2 : pre ++ m :: (skipped ++ n :: after) = pre ++ (((m :: skipped) ++ [n]) ++ after) := by
    simp
  unfold Precedes
  rw [e1, e2]
  apply pair_sublist_middle
  · intro x
    simp only [List.mem_append, List.mem_singleton]
    tauto
  · have hL : ∀ t ∈ m :: skipped, (decide (t = m) || isSkipped t) = true := by
      intro t ht
      rcases List.mem_cons.mp ht with rfl | ht
      · simp
      · simp [hsk t ht]
    have hno : ¬ List.Sublist [a, b] [n] := by
      intro h
      have := h.length_le
      simp at this
    rw [pair_sublist_append, pair_sublist_append]
    constructor
    · rintro (h | ⟨h1, h2⟩ | h)
      · exact absurd h hno
      · exfalso
        rw [List.mem_singleton] at h1
        subst h1
        have := hL b h2
        simp [mayCross, hn, this] at hba
      · exact Or.inl h
    · rintro (h | ⟨h1, h2⟩ | h)
      · exact Or.inr (Or.inr h)
      · exfalso
        rw [List.mem_singleton] at h2
        subst h2
        have := hL a h1
        simp [mayCross, hn, this] at hab
      · exact absurd h hno

end quir

/-! ## The driver applies the rule some number of times -/

namespace greedy

variable {α : Type}

theorem foldl_rule_induct (rule : Rule α) (R : List α → List α → Prop)
    (htrans : ∀ a b c, R a b → R b c → R a c)
    (hrule : ∀ b i b', rule b i = some b' → R b b') :
    ∀ (is : List Nat) (st : List α × Bool) (b0 : List α), R b0 st.1 →
      R b0 (is.foldl (sweepStep rule) st).1 := by
  intro is
  induction is with
  | nil => intro st b0 h; exact h
  | cons i is ih =>
    intro st b0 h
    rw [List.foldl_cons]
    apply ih
    unfold sweepStep
    cases hr : rule st.1 i with
    | none => exact h
    | some b' => exact htrans _ _ _ h (hrule _ _ _ hr)

/-- A reflexive and transitive relation that holds across every application of
the rule holds between the input and the output of the driver. -/
theorem applyPatternsGreedily_induct (rule : Rule α) (R : List α → List α → Prop)
    (hrefl : ∀ a, R a a) (htrans : ∀ a b c, R a b → R b c → R a c)
    (hrule : ∀ b i b', rule b i = some b' → R b b') :
    ∀ (n : Nat) (block out : List α), applyPatternsGreedily rule n block = some out →
      R block out := by
  intro n
  induction n with
  | zero => intro block out h; simp [applyPatternsGreedily] at h
  | succ n ih =>
    intro block out h
    have hs : R block (sweep rule block).1 :=
      foldl_rule_induct rule R htrans hrule _ (block, false) block (hrefl _)
    rw [applyPatternsGreedily] at h
    rcases hsw : sweep rule block with ⟨b', c⟩
    rw [hsw] at h hs
    cases c with
    | true => exact htrans _ _ _ hs (ih _ _ h)
    | false =>
      simp only [Option.some.injEq] at h
      subst h
      exact hs

end greedy

namespace quir

/-! ## What one application of the pattern does to the block -/

theorem opsShareQubits_iff (a b : Operation) :
    opsShareQubits a b = true ↔ ∃ q, q ∈ a.qubits ∧ q ∈ b.qubits := by
  simp [opsShareQubits, List.any_eq_true]

theorem opsShareQubits_comm (a b : Operation) : opsShareQubits a b = opsShareQubits b a := by
  rw [Bool.eq_iff_iff, opsShareQubits_iff, opsShareQubits_iff]
  constructor <;> rintro ⟨q, h1, h2⟩ <;> exact ⟨q, h2, h1⟩

theorem opsShareQubits_of_isSkipped_left (a b : Operation) (h : isSkipped a = true) :
    opsShareQubits a b = false := by
  have hq : a.qubits = [] := by
    simp only [isSkipped, isQuantumOp, Bool.not_eq_true', Bool.or_eq_false_iff,
      Bool.not_eq_false', List.isEmpty_iff] at h
    exact h.1
  simp [opsShareQubits, hq]

/-- An operation is never movable with respect to itself. -/
theorem movable_self (m : Operation) : movable m m = false := by
  cases hm : movable m m with
  | false => rfl
  | true =>
    exfalso
    simp only [movable, blocks, isSkipped, isQuantumOp, Bool.and_eq_true, Bool.not_eq_true',
      Bool.or_eq_false_iff, Bool.not_eq_false', Bool.or_eq_true, Bool.and_eq_false_imp,
      List.isEmpty_eq_false] at hm
    obtain ⟨h1, h2⟩ := hm
    have h3 := h2 h1
    rcases h1 with h1 | h1
    · have : opsShareQubits m m = true := by
        rw [opsShareQubits_iff]
        obtain ⟨q, hq⟩ := List.exists_mem_of_ne_nil _ h1
        exact ⟨q, hq, hq⟩
      rw [this] at h3
      simp at h3
    · rw [h1] at h3; simp at h3

/-- Pairs that may not cross keep their order through the whole loop. -/
theorem precedes_movesFrom (m a b : Operation)
    (hab : mayCross m a b = false) (hba : mayCross m b a = false) :
    ∀ (k : Nat) (pre rest p r : List Operation), movesFrom m k pre rest = some (p, r) →
      (Precedes (p ++ m :: r) a b ↔ Precedes (pre ++ m :: rest) a b) := by
  apply movesFrom_induct m
    (fun pre rest p r => Precedes (p ++ m :: r) a b ↔ Precedes (pre ++ m :: rest) a b)
  · intro pre rest; exact Iff.rfl
  · intro pre rest pre1 rest1 p r hb ih
    obtain ⟨sk, n, af, _, h1, h2, h3, h4, h5⟩ := loopBody_some m pre rest pre1 rest1 hb
    subst h1 h4 h5
    exact ih.trans (precedes_move m n a b pre sk af h3 h2 hab hba)

theorem precedes_matchAndRewrite (m a b : Operation) (pre rest : List Operation)
    (hab : mayCross m a b = false) (hba : mayCross m b a = false) :
    Precedes ((matchAndRewrite m pre rest).block m) a b ↔ Precedes (pre ++ m :: rest) a b := by
  obtain ⟨k, _, hm, _, _⟩ := matchAndRewrite_spec m pre rest
  exact precedes_movesFrom m a b hab hba k pre rest _ _ hm

/-- An application of the pattern at a position is `matchAndRewrite` at a
`MeasureOp` of the block. -/
theorem applyPattern_some (block : List Operation) (i : Nat) (block' : List Operation)
    (h : applyPattern block i = some block') :
    ∃ m pre rest, block = pre ++ m :: rest ∧ pre.length = i ∧ m.isMeasureOp = true ∧
      (matchAndRewrite m pre rest).result = LogicalResult.success ∧
      block' = (matchAndRewrite m pre rest).block m := by
  unfold applyPattern at h
  cases hd : block.drop i with
  | nil => simp [hd] at h
  | cons m rest =>
    simp only [hd] at h
    have hblock : block = block.take i ++ m :: rest := by
      rw [← hd, List.take_append_drop]
    have hlen : (block.take i).length = i := by
      have : i < block.length := by
        by_contra hc
        have := List.drop_eq_nil_of_le (Nat.le_of_not_lt hc)
        rw [this] at hd
        simp at hd
      rw [List.length_take]
      omega
    by_cases hmm : m.isMeasureOp = true
    · rw [if_pos hmm] at h
      cases hres : (matchAndRewrite m (block.take i) rest).result with
      | success =>
        simp only [hres, Option.some.injEq] at h
        exact ⟨m, block.take i, rest, hblock, hlen, hmm, hres, h.symm⟩
      | failure => simp [hres] at h
    · rw [if_neg hmm] at h; simp at h

end quir

namespace quir

theorem movable_iff (m n : Operation) :
    movable m n = true ↔
      isSkipped n = false ∧ n.hasTraitCPTPOp = false ∧ n.hasTraitRegionBranch = false ∧
        opsShareQubits m n = false := by
  cases h1 : isSkipped n <;> cases h2 : n.hasTraitCPTPOp <;> cases h3 : n.hasTraitRegionBranch <;>
    cases h4 : opsShareQubits m n <;> simp [movable, blocks, h1, h2, h3, h4]

theorem mayCross_iff (m stay moved : Operation) :
    mayCross m stay moved = true ↔ movable m moved = true ∧ (stay = m ∨ isSkipped stay = true) := by
  simp [mayCross]

theorem mayCross_eq_false (m stay moved : Operation)
    (h : movable m moved = true → stay ≠ m ∧ isSkipped stay = false) :
    mayCross m stay moved = false := by
  cases hc : mayCross m stay moved with
  | false => rfl
  | true =>
    exfalso
    obtain ⟨h1, h2⟩ := (mayCross_iff m stay moved).mp hc
    obtain ⟨h3, h4⟩ := h h1
    rcases h2 with h2 | h2
    · exact h3 h2
    · rw [h4] at h2; simp at h2

/-- Two operations that share a qubit may not cross, whatever the measurement. -/
theorem mayCross_of_share (m a b : Operation) (h : opsShareQubits a b = true) :
    mayCross m a b = false := by
  apply mayCross_eq_false
  intro hmov
  have hmb := ((movable_iff m b).mp hmov).2.2.2
  constructor
  · rintro rfl
    rw [h] at hmb
    simp at hmb
  · cases hs : isSkipped a with
    | false => rfl
    | true =>
      rw [opsShareQubits_of_isSkipped_left a b hs] at h
      simp at h

/-- The order relation carried through the driver. -/
theorem precedes_runOnOperation (a b : Operation)
    (h : ∀ m : Operation, m.isMeasureOp = true → mayCross m a b = false ∧ mayCross m b a = false) :
    ∀ (n : Nat) (block out : List Operation),
      ReorderMeasurementsPass.runOnOperation n block = some out →
        (Precedes out a b ↔ Precedes block a b) := by
  intro n block out hrun
  refine greedy.applyPatternsGreedily_induct applyPattern
    (fun x y => Precedes y a b ↔ Precedes x a b) (fun _ => Iff.rfl)
    (fun _ _ _ h1 h2 => h2.trans h1) ?_ n block out hrun
  intro x i x' hx
  obtain ⟨m, pre, rest, rfl, _, hm, _, rfl⟩ := applyPattern_some x i x' hx
  exact precedes_matchAndRewrite m a b pre rest (h m hm).1 (h m hm).2

/-- C1 (reorder legality): whatever the block and the anchor, any two operations
that share at least one qubit occur in the same relative order after
`matchAndRewrite` as before it, and so they do after the whole pass, which is
a sequence of applications of the pattern. -/
theorem reorder_legality :
    (∀ (m : Operation) (pre rest : List Operation) (a b : Operation),
      opsShareQubits a b = true →
        (Precedes ((matchAndRewrite m pre rest).block m) a b ↔
          Precedes (pre ++ m :: rest) a b)) ∧
    (∀ (maxIterations : Nat) (block out : List Operation) (a b : Operation),
      ReorderMeasurementsPass.runOnOperation maxIterations block = some out →
        opsShareQubits a b = true → (Precedes out a b ↔ Precedes block a b)) := by
  constructor
  · intro m pre rest a b h
    exact precedes_matchAndRewrite m a b pre rest (mayCross_of_share m a b h)
      (mayCross_of_share m b a (by rw [opsShareQubits_comm]; exact h))
  · intro n block out a b hrun h
    exact precedes_runOnOperation a b
      (fun m _ => ⟨mayCross_of_share m a b h,
        mayCross_of_share m b a (by rw [opsShareQubits_comm]; exact h)⟩) n block out hrun

/-- The measurement on qubit 0 stays before the gate on qubit 0, in the pattern
and in the pass, on the block `[Measure(q0), Gate(q1), Gate(q0)]`. -/
theorem reorder_legality_witness :
    Precedes ((matchAndRewrite (Measure 0 [0]) [] [Gate 1 [1], Gate 2 [0]]).block (Measure 0 [0]))
        (Measure 0 [0]) (Gate 2 [0]) ∧
      ReorderMeasurementsPass.runOnOperation 2 [Measure 0 [0], Gate 1 [1], Gate 2 [0]] =
        some [Gate 1 [1], Measure 0 [0], Gate 2 [0]] ∧
      Precedes [Gate 1 [1], Measure 0 [0], Gate 2 [0]] (Measure 0 [0]) (Gate 2 [0]) :=
  ⟨(reorder_legality.1 (Measure 0 [0]) [] [Gate 1 [1], Gate 2 [0]] (Measure 0 [0]) (Gate 2 [0])
      (by decide)).mpr (by decide),
    by decide,
    (reorder_legality.2 2 [Measure 0 [0], Gate 1 [1], Gate 2 [0]]
      [Gate 1 [1], Measure 0 [0], Gate 2 [0]] (Measure 0 [0]) (Gate 2 [0])
      (by decide) (by decide)).mpr (by decide)⟩

end quir

namespace quir

/-! ## Order of the operations that are not the anchor -/

theorem mayCross_of_same_kind (m a b : Operation) (ha : a ≠ m)
    (hk : isSkipped a = isSkipped b) : mayCross m a b = false := by
  apply mayCross_eq_false
  intro hmov
  refine ⟨ha, ?_⟩
  rw [hk]
  exact ((movable_iff m b).mp hmov).1

/-! ## What is moved -/

/-- The operations before the measurement grow by the moved operations, each of
them movable; together with what is left after the measurement they are the
operations that followed it. -/
theorem movesFrom_moved (m : Operation) :
    ∀ (k : Nat) (pre rest p r : List Operation), movesFrom m k pre rest = some (p, r) →
      ∃ moved, p = pre ++ moved ∧ (∀ n ∈ moved, movable m n = true) ∧
        List.Perm (moved ++ r) rest := by
  apply movesFrom_induct m
    (fun pre rest p r => ∃ moved, p = pre ++ moved ∧ (∀ n ∈ moved, movable m n = true) ∧
        List.Perm (moved ++ r) rest)
  · intro pre rest
    exact ⟨[], by simp, by simp, by simp⟩
  · intro pre rest pre1 rest1 p r hb ih
    obtain ⟨sk, n, af, _, h1, _, h3, h4, h5⟩ := loopBody_some m pre rest pre1 rest1 hb
    obtain ⟨moved, hp, hmov, hperm⟩ := ih
    subst h1 h4 h5
    refine ⟨n :: moved, by simp [hp], ?_, ?_⟩
    · intro x hx
      rcases List.mem_cons.mp hx with rfl | hx
      · exact h3
      · exact hmov x hx
    · exact (List.Perm.cons n hperm).trans List.perm_middle.symm

theorem movesFrom_length (m : Operation) :
    ∀ (k : Nat) (pre rest p r : List Operation), movesFrom m k pre rest = some (p, r) →
      p.length = pre.length + k ∧ r.length + k = rest.length := by
  intro k
  induction k with
  | zero =>
    intro pre rest p r h
    simp only [movesFrom, Option.some.injEq, Prod.mk.injEq] at h
    obtain ⟨rfl, rfl⟩ := h
    simp
  | succ k ih =>
    intro pre rest p r h
    cases hb : loopBody m pre rest with
    | none => simp [movesFrom, hb] at h
    | some v =>
      obtain ⟨p1, r1⟩ := v
      simp only [movesFrom, hb] at h
      have h1 := loopBody_length m pre rest p1 r1 hb
      have h2 := ih p1 r1 p r h
      omega

theorem matchAndRewrite_moved (m : Operation) (pre rest : List Operation) :
    ∃ moved, (matchAndRewrite m pre rest).pre = pre ++ moved ∧
      (∀ n ∈ moved, movable m n = true) ∧
      List.Perm (moved ++ (matchAndRewrite m pre rest).rest) rest := by
  obtain ⟨k, _, hm, _, _⟩ := matchAndRewrite_spec m pre rest
  exact movesFrom_moved m k pre rest _ _ hm

theorem mayCross_of_fixed (m a b : Operation)
    (hb : (b.hasTraitCPTPOp || b.hasTraitRegionBranch) = true) : mayCross m a b = false := by
  cases hc : mayCross m a b with
  | false => rfl
  | true =>
    exfalso
    obtain ⟨h1, _⟩ := (mayCross_iff m a b).mp hc
    obtain ⟨_, h2, h3, _⟩ := (movable_iff m b).mp h1
    simp [h2, h3] at hb

/-- C3: two CPTP operations, or a CPTP operation and a control-flow operation,
keep their relative order through `matchAndRewrite`, whatever the block and the
anchor, and through the pass; every operation that `matchAndRewrite` moves
before the measurement comes from behind it and is neither CPTP nor control
flow. -/
theorem irreversible_order :
    (∀ (m : Operation) (pre rest : List Operation) (a b : Operation),
      (a.hasTraitCPTPOp = true ∧ b.hasTraitCPTPOp = true) ∨
        (a.hasTraitCPTPOp = true ∧ b.hasTraitRegionBranch = true) ∨
        (a.hasTraitRegionBranch = true ∧ b.hasTraitCPTPOp = true) →
      (Precedes ((matchAndRewrite m pre rest).block m) a b ↔
        Precedes (pre ++ m :: rest) a b)) ∧
    (∀ (maxIterations : Nat) (block out : List Operation) (a b : Operation),
      ReorderMeasurementsPass.runOnOperation maxIterations block = some out →
      (a.hasTraitCPTPOp = true ∧ b.hasTraitCPTPOp = true) ∨
        (a.hasTraitCPTPOp = true ∧ b.hasTraitRegionBranch = true) ∨
        (a.hasTraitRegionBranch = true ∧ b.hasTraitCPTPOp = true) →
      (Precedes out a b ↔ Precedes block a b)) ∧
    (∀ (m : Operation) (pre rest : List Operation),
      ∃ moved, (matchAndRewrite m pre rest).pre = pre ++ moved ∧
        ∀ n ∈ moved, n ∈ rest ∧ n.hasTraitCPTPOp = false ∧ n.hasTraitRegionBranch = false) := by
  have key : ∀ (m a b : Operation),
      (a.hasTraitCPTPOp = true ∧ b.hasTraitCPTPOp = true) ∨
        (a.hasTraitCPTPOp = true ∧ b.hasTraitRegionBranch = true) ∨
        (a.hasTraitRegionBranch = true ∧ b.hasTraitCPTPOp = true) →
      mayCross m a b = false ∧ mayCross m b a = false := by
    intro m a b h
    constructor
    · apply mayCross_of_fixed
      rcases h with ⟨_, h⟩ | ⟨_, h⟩ | ⟨_, h⟩ <;> simp [h]
    · apply mayCross_of_fixed
      rcases h with ⟨h, _⟩ | ⟨h, _⟩ | ⟨h, _⟩ <;> simp [h]
  refine ⟨?_, ?_, ?_⟩
  · intro m pre rest a b h
    exact precedes_matchAndRewrite m a b pre rest (key m a b h).1 (key m a b h).2
  · intro n block out a b hrun h
    exact precedes_runOnOperation a b (fun m _ => key m a b h) n block out hrun
  · intro m pre rest
    obtain ⟨moved, h1, h2, h3⟩ := matchAndRewrite_moved m pre rest
    refine ⟨moved, h1, fun n hn => ⟨?_, ?_, ?_⟩⟩
    · exact h3.subset (List.mem_append_left _ hn)
    · exact ((movable_iff m n).mp (h2 n hn)).2.1
    · exact ((movable_iff m n).mp (h2 n hn)).2.2.1

/-- On `[Measure(q0), Gate(q2), Reset(q1)]` the gate is moved and the
measurement stays before the reset; after the pass it still does. -/
theorem irreversible_order_witness :
    Precedes
        ((matchAndRewrite (Measure 0 [0]) [] [Gate 1 [2], Reset 2 [1]]).block (Measure 0 [0]))
        (Measure 0 [0]) (Reset 2 [1]) ∧
      ReorderMeasurementsPass.runOnOperation 2 [Measure 0 [0], Gate 1 [2], Reset 2 [1]] =
        some [Gate 1 [2], Measure 0 [0], Reset 2 [1]] ∧
      Precedes [Gate 1 [2], Measure 0 [0], Reset 2 [1]] (Measure 0 [0]) (Reset 2 [1]) :=
  ⟨(irreversible_order.1 (Measure 0 [0]) [] [Gate 1 [2], Reset 2 [1]] (Measure 0 [0])
      (Reset 2 [1]) (Or.inl ⟨rfl, rfl⟩)).mpr (by decide),
    by decide,
    (irreversible_order.2.1 2 [Measure 0 [0], Gate 1 [2], Reset 2 [1]]
      [Gate 1 [2], Measure 0 [0], Reset 2 [1]] (Measure 0 [0]) (Reset 2 [1])
      (by decide) (Or.inl ⟨rfl, rfl⟩)).mpr (by decide)⟩

end quir

namespace quir

/-! ## The block is only permuted -/

theorem perm_matchAndRewrite (m : Operation) (pre rest : List Operation) :
    List.Perm ((matchAndRewrite m pre rest).block m) (pre ++ m :: rest) := by
  obtain ⟨moved, h1, _, h3⟩ := matchAndRewrite_moved m pre rest
  unfold RewriteResult.block
  rw [h1, List.append_assoc]
  refine List.Perm.append_left pre ?_
  exact List.perm_middle.trans (List.Perm.cons m h3)

/-- C6: whatever the block and the anchor, the block after `matchAndRewrite` is
a permutation of the block before it: every operation, with its identity, its
qubit set and its traits, occurs as often after as before, and the anchor is
the same operation.  The same holds for the whole pass. -/
theorem only_positions_change :
    (∀ (m : Operation) (pre rest : List Operation),
      List.Perm ((matchAndRewrite m pre rest).block m) (pre ++ m :: rest) ∧
        ∀ op : Operation,
          ((matchAndRewrite m pre rest).block m).count op = (pre ++ m :: rest).count op) ∧
    (∀ (maxIterations : Nat) (block out : List Operation),
      ReorderMeasurementsPass.runOnOperation maxIterations block = some out →
        List.Perm out block) := by
  constructor
  · intro m pre rest
    exact ⟨perm_matchAndRewrite m pre rest, fun op => (perm_matchAndRewrite m pre rest).count_eq op⟩
  · intro n block out hrun
    refine greedy.applyPatternsGreedily_induct applyPattern (fun x y => List.Perm y x)
      (fun _ => List.Perm.refl _) (fun _ _ _ h1 h2 => h2.trans h1) ?_ n block out hrun
    intro x i x' hx
    obtain ⟨m, pre, rest, rfl, _, _, _, rfl⟩ := applyPattern_some x i x' hx
    exact perm_matchAndRewrite m pre rest

/-- The pass permutes `[Measure(q0), Gate(q1), Gate(q0)]`. -/
theorem only_positions_change_witness :
    ReorderMeasurementsPass.runOnOperation 2 [Measure 0 [0], Gate 1 [1], Gate 2 [0]] =
        some [Gate 1 [1], Measure 0 [0], Gate 2 [0]] ∧
      List.Perm [Gate 1 [1], Measure 0 [0], Gate 2 [0]] [Measure 0 [0], Gate 1 [1], Gate 2 [0]] :=
  ⟨by decide,
    only_positions_change.2 2 [Measure 0 [0], Gate 1 [1], Gate 2 [0]]
      [Gate 1 [1], Measure 0 [0], Gate 2 [0]] (by decide)⟩

/-! ## The result reported -/

theorem result_failure_iff (r : LogicalResult) :
    r = LogicalResult.failure ↔ ¬ r = LogicalResult.success := by
  cases r <;> simp

/-- C7: whatever the block and the anchor, `matchAndRewrite` returns success if
and only if its result is the state after a positive number of moves, and it
returns failure if and only if the block after it is the block before it. -/
theorem success_iff_moved (m : Operation) (pre rest : List Operation) :
    ((matchAndRewrite m pre rest).result = LogicalResult.success ↔
      ∃ k, 0 < k ∧ movesFrom m k pre rest =
        some ((matchAndRewrite m pre rest).pre, (matchAndRewrite m pre rest).rest)) ∧
    ((matchAndRewrite m pre rest).result = LogicalResult.failure ↔
      (matchAndRewrite m pre rest).block m = pre ++ m :: rest) := by
  obtain ⟨k, _, hm, _, hres⟩ := matchAndRewrite_spec m pre rest
  have hlen := movesFrom_length m k pre rest _ _ hm
  constructor
  · constructor
    · intro h
      exact ⟨k, hres.mp h, hm⟩
    · rintro ⟨k', hk', hm'⟩
      have hlen' := movesFrom_length m k' pre rest _ _ hm'
      exact hres.mpr (by omega)
  · rw [result_failure_iff, hres]
    constructor
    · intro h
      have hk : k = 0 := by omega
      subst hk
      simp only [movesFrom, Option.some.injEq, Prod.mk.injEq] at hm
      unfold RewriteResult.block
      rw [← hm.1, ← hm.2]
    · intro hblock hk
      obtain ⟨moved, h1, h2, _⟩ := movesFrom_moved m k pre rest _ _ hm
      unfold RewriteResult.block at hblock
      rw [h1, List.append_assoc] at hblock
      have hcancel := List.append_cancel_left hblock
      cases moved with
      | nil =>
        rw [h1] at hlen
        simp at hlen
        omega
      | cons n tl =>
        simp only [List.cons_append, List.cons.injEq] at hcancel
        have := h2 n (List.mem_cons_self _ _)
        rw [hcancel.1, movable_self] at this
        simp at this

/-! ## Control flow blocks -/

/-- C8: whatever the block and the anchor, when the first operation after the
measurement that is qubit-bearing or control flow is a control-flow operation,
`matchAndRewrite` moves nothing, leaves the block as it is and returns failure,
whatever the qubits of that operation. -/
theorem control_flow_blocks (m : Operation) (pre rest skipped : List Operation)
    (nextOp : Operation) (after : List Operation)
    (hnext : nextQuantumOrControlFlowOrNull rest = some (skipped, nextOp, after))
    (hcf : nextOp.hasTraitRegionBranch = true) :
    matchAndRewrite m pre rest = ⟨pre, rest, LogicalResult.failure⟩ ∧
      (matchAndRewrite m pre rest).block m = pre ++ m :: rest := by
  have hb : loopBody m pre rest = none := by
    simp [loopBody, hnext, hcf]
  have : matchAndRewrite m pre rest = ⟨pre, rest, LogicalResult.failure⟩ := by
    simp [matchAndRewrite, matchAndRewriteLoop, hb]
  rw [this]
  exact ⟨rfl, rfl⟩

/-- The scenario `[Measure(q0), Barrier, Gate(q1)]`, with a barrier without
qubits, is returned unchanged. -/
theorem control_flow_blocks_witness :
    nextQuantumOrControlFlowOrNull [Barrier 1 [], Gate 2 [1]] =
        some ([], Barrier 1 [], [Gate 2 [1]]) ∧
      (matchAndRewrite (Measure 0 [0]) [] [Barrier 1 [], Gate 2 [1]]).block (Measure 0 [0]) =
        [] ++ Measure 0 [0] :: [Barrier 1 [], Gate 2 [1]] :=
  ⟨by decide,
    (control_flow_blocks (Measure 0 [0]) [] [Barrier 1 [], Gate 2 [1]] [] (Barrier 1 [])
      [Gate 2 [1]] (by decide) (by decide)).2⟩

end quir

namespace quir

/-! ## The loop ends -/

theorem blocks_of_isSkipped (m t : Operation) (h : isSkipped t = true) : blocks m t = false := by
  simp [blocks, h]

theorem blocks_of_movable (m n : Operation) (h : movable m n = true) : blocks m n = false := by
  simp only [movable, Bool.and_eq_true, Bool.not_eq_true'] at h
  exact h.2

theorem window_le (m : Operation) (rest : List Operation) : window m rest ≤ rest.length := by
  unfold window
  exact (List.takeWhile_sublist _).length_le

theorem window_loopBody (m : Operation) (pre rest pre' rest' : List Operation)
    (h : loopBody m pre rest = some (pre', rest')) : window m rest' + 1 = window m rest := by
  obtain ⟨sk, n, af, _, h1, h2, h3, _, h5⟩ := loopBody_some m pre rest pre' rest' h
  subst h1 h5
  have hsk : ∀ t ∈ sk, (fun op => !blocks m op) t = true := by
    intro t ht
    simp [blocks_of_isSkipped m t (h2 t ht)]
  have hn : List.takeWhile (fun op => !blocks m op) (n :: af) =
      n :: List.takeWhile (fun op => !blocks m op) af := by
    simp [List.takeWhile_cons, blocks_of_movable m n h3]
  unfold window
  rw [List.takeWhile_append_of_pos hsk, List.takeWhile_append_of_pos hsk, hn]
  simp only [List.length_append, List.length_cons]
  omega

theorem window_movesFrom (m : Operation) :
    ∀ (k : Nat) (pre rest p r : List Operation), movesFrom m k pre rest = some (p, r) →
      window m r + k = window m rest := by
  intro k
  induction k with
  | zero =>
    intro pre rest p r h
    simp only [movesFrom, Option.some.injEq, Prod.mk.injEq] at h
    rw [h.2]
    rfl
  | succ k ih =>
    intro pre rest p r h
    cases hb : loopBody m pre rest with
    | none => simp [movesFrom, hb] at h
    | some v =>
      obtain ⟨p1, r1⟩ := v
      simp only [movesFrom, hb] at h
      have h1 := window_loopBody m pre rest p1 r1 hb
      have h2 := ih p1 r1 p r h
      omega

/-- C10: each move lowers by one the number of operations strictly between the
measurement and the nearest blocking operation (the end of the block when
there is none); so, whatever the block, the loop, allowed more passes than
there are operations after the measurement, reaches a `break` after a number
of moves that is at most that count, which is at most the number of operations
after the measurement; and `matchAndRewrite` returns that state. -/
theorem loop_terminates :
    (∀ (m : Operation) (pre rest pre' rest' : List Operation),
      loopBody m pre rest = some (pre', rest') → window m rest' + 1 = window m rest) ∧
    (∀ (m : Operation) (fuel : Nat) (pre rest : List Operation) (anyMove : Bool),
      rest.length < fuel →
        ∃ k p r, k ≤ window m rest ∧ window m rest ≤ rest.length ∧
          movesFrom m k pre rest = some (p, r) ∧ loopBody m p r = none ∧
          matchAndRewriteLoop m fuel pre rest anyMove = some (p, r, anyMove || decide (0 < k))) ∧
    (∀ (m : Operation) (pre rest : List Operation),
      ∃ k, k ≤ rest.length ∧
        movesFrom m k pre rest =
          some ((matchAndRewrite m pre rest).pre, (matchAndRewrite m pre rest).rest) ∧
        loopBody m (matchAndRewrite m pre rest).pre (matchAndRewrite m pre rest).rest = none) := by
  refine ⟨window_loopBody, ?_, ?_⟩
  · intro m fuel pre rest b hf
    obtain ⟨k, p, r, _, hm, hn, hr⟩ := matchAndRewriteLoop_spec m fuel pre rest b hf
    have hw := window_movesFrom m k pre rest p r hm
    exact ⟨k, p, r, by omega, window_le m rest, hm, hn, hr⟩
  · intro m pre rest
    obtain ⟨k, hk, hm, hn, _⟩ := matchAndRewrite_spec m pre rest
    exact ⟨k, hk, hm, hn⟩

/-- On `[Measure(q0), Gate(q1), Gate(q0)]` the one move lowers the count from 1
to 0, and the loop, allowed three passes, ends. -/
theorem loop_terminates_witness :
    window (Measure 0 [0]) [Gate 2 [0]] + 1 = window (Measure 0 [0]) [Gate 1 [1], Gate 2 [0]] ∧
      ∃ k p r, k ≤ window (Measure 0 [0]) [Gate 1 [1], Gate 2 [0]] ∧
        window (Measure 0 [0]) [Gate 1 [1], Gate 2 [0]] ≤ [Gate 1 [1], Gate 2 [0]].length ∧
        movesFrom (Measure 0 [0]) k [] [Gate 1 [1], Gate 2 [0]] = some (p, r) ∧
        loopBody (Measure 0 [0]) p r = none ∧
        matchAndRewriteLoop (Measure 0 [0]) 3 [] [Gate 1 [1], Gate 2 [0]] false =
          some (p, r, false || decide (0 < k)) :=
  ⟨loop_terminates.1 (Measure 0 [0]) [] [Gate 1 [1], Gate 2 [0]] [Gate 1 [1]] [Gate 2 [0]]
      (by decide),
    loop_terminates.2.1 (Measure 0 [0]) 3 [] [Gate 1 [1], Gate 2 [0]] false (by decide)⟩

end quir

/-! ## The driver reaches a fixpoint -/

namespace greedy

variable {α : Type}

/-- A pass that ends unmarked began unmarked, changed nothing and found no
match at any anchor it offered. -/
theorem foldl_sweepStep_false (rule : Rule α) :
    ∀ (is : List Nat) (st : List α × Bool), (is.foldl (sweepStep rule) st).2 = false →
      is.foldl (sweepStep rule) st = st ∧ st.2 = false ∧ ∀ i ∈ is, rule st.1 i = none := by
  intro is
  induction is with
  | nil => intro st h; exact ⟨rfl, h, by simp⟩
  | cons i is ih =>
    intro st h
    rw [List.foldl_cons] at h ⊢
    obtain ⟨h1, h2, h3⟩ := ih _ h
    cases hr : rule st.1 i with
    | some b' => simp [sweepStep, hr] at h2
    | none =>
      have hst : sweepStep rule st i = st := by simp [sweepStep, hr]
      rw [hst] at h1 h2 h3 ⊢
      refine ⟨h1, h2, ?_⟩
      intro j hj
      rcases List.mem_cons.mp hj with rfl | hj
      · exact hr
      · exact h3 j hj

theorem sweep_false (rule : Rule α) (block block' : List α)
    (h : sweep rule block = (block', false)) :
    block' = block ∧ ∀ i, i < block.length → rule block i = none := by
  unfold sweep at h
  obtain ⟨h1, _, h3⟩ := foldl_sweepStep_false rule (List.range block.length) (block, false)
    (by rw [h])
  rw [h] at h1
  refine ⟨congrArg Prod.fst h1, fun i hi => h3 i (List.mem_range.mpr hi)⟩

/-- A block at which no anchor matches is returned unmarked by a pass. -/
theorem foldl_sweepStep_of_none (rule : Rule α) (block : List α) :
    ∀ (is : List Nat), (∀ i ∈ is, rule block i = none) →
      is.foldl (sweepStep rule) (block, false) = (block, false) := by
  intro is
  induction is with
  | nil => intro _; rfl
  | cons i is ih =>
    intro h
    rw [List.foldl_cons]
    have : sweepStep rule (block, false) i = (block, false) := by
      simp [sweepStep, h i (List.mem_cons_self _ _)]
    rw [this]
    exact ih (fun j hj => h j (List.mem_cons_of_mem _ hj))

/-- The output of the driver is a fixpoint of a pass. -/
theorem applyPatternsGreedily_fixpoint (rule : Rule α) :
    ∀ (n : Nat) (block out : List α), applyPatternsGreedily rule n block = some out →
      sweep rule out = (out, false) := by
  intro n
  induction n with
  | zero => intro block out h; simp [applyPatternsGreedily] at h
  | succ n ih =>
    intro block out h
    rw [applyPatternsGreedily] at h
    rcases hsw : sweep rule block with ⟨b', c⟩
    rw [hsw] at h
    cases c with
    | true => exact ih _ _ h
    | false =>
      simp only [Option.some.injEq] at h
      subst h
      have := (sweep_false rule block b' hsw).1
      rw [this] at hsw ⊢
      exact hsw

theorem applyPatternsGreedily_of_fixpoint (rule : Rule α) (out : List α)
    (h : sweep rule out = (out, false)) (k : Nat) :
    applyPatternsGreedily rule (k + 1) out = some out := by
  rw [applyPatternsGreedily, h]

/-- A pass keeps an invariant that the rule keeps, does not raise a measure
that the rule lowers, and lowers it when it marks a change. -/
theorem foldl_sweepStep_measure (rule : Rule α) (Inv : List α → Prop) (μ : List α → Nat)
    (hrule : ∀ b i b', Inv b → rule b i = some b' → Inv b' ∧ μ b' < μ b) :
    ∀ (is : List Nat) (st : List α × Bool), Inv st.1 →
      Inv (is.foldl (sweepStep rule) st).1 ∧ μ (is.foldl (sweepStep rule) st).1 ≤ μ st.1 ∧
        ((is.foldl (sweepStep rule) st).2 = true →
          st.2 = true ∨ μ (is.foldl (sweepStep rule) st).1 < μ st.1) := by
  intro is
  induction is with
  | nil => intro st h; exact ⟨h, Nat.le_refl _, fun h2 => Or.inl h2⟩
  | cons i is ih =>
    intro st h
    rw [List.foldl_cons]
    cases hr : rule st.1 i with
    | none =>
      have hst : sweepStep rule st i = st := by simp [sweepStep, hr]
      rw [hst]
      exact ih st h
    | some b' =>
      have hst : sweepStep rule st i = (b', true) := by simp [sweepStep, hr]
      rw [hst]
      obtain ⟨h1, h2⟩ := hrule _ _ _ h hr
      obtain ⟨h3, h4, _⟩ := ih (b', true) h1
      exact ⟨h3, by simp only at h4; omega, fun _ => Or.inr (by simp only at h4; omega)⟩

/-- With a measure that every match lowers, the driver ends: every cap above
the measure of the input gives the same output. -/
theorem applyPatternsGreedily_converges (rule : Rule α) (Inv : List α → Prop)
    (μ : List α → Nat)
    (hrule : ∀ b i b', Inv b → rule b i = some b' → Inv b' ∧ μ b' < μ b) :
    ∀ (N : Nat) (block : List α), μ block ≤ N → Inv block →
      ∃ out, ∀ n, μ block < n → applyPatternsGreedily rule n block = some out := by
  intro N
  induction N with
  | zero =>
    intro block hN hInv
    obtain ⟨_, _, h3⟩ := foldl_sweepStep_measure rule Inv μ hrule (List.range block.length)
      (block, false) hInv
    rcases hsw : sweep rule block with ⟨b', c⟩
    have hsw' : (List.range block.length).foldl (sweepStep rule) (block, false) = (b', c) := hsw
    rw [hsw'] at h3
    cases c with
    | true =>
      rcases h3 rfl with h | h
      · simp at h
      · simp only at h; omega
    | false =>
      refine ⟨b', fun n hn => ?_⟩
      obtain ⟨n', rfl⟩ : ∃ n', n = n' + 1 := ⟨n - 1, by omega⟩
      rw [applyPatternsGreedily, hsw]
  | succ N ih =>
    intro block hN hInv
    obtain ⟨h1, _, h3⟩ := foldl_sweepStep_measure rule Inv μ hrule (List.range block.length)
      (block, false) hInv
    rcases hsw : sweep rule block with ⟨b', c⟩
    have hsw' : (List.range block.length).foldl (sweepStep rule) (block, false) = (b', c) := hsw
    rw [hsw'] at h1 h3
    cases c with
    | true =>
      have hlt : μ b' < μ block := by
        rcases h3 rfl with h | h
        · simp at h
        · exact h
      obtain ⟨out, hout⟩ := ih b' (by omega) h1
      refine ⟨out, fun n hn => ?_⟩
      obtain ⟨n', rfl⟩ : ∃ n', n = n' + 1 := ⟨n - 1, by omega⟩
      rw [applyPatternsGreedily, hsw]
      exact hout n' (by omega)
    | false =>
      refine ⟨b', fun n hn => ?_⟩
      obtain ⟨n', rfl⟩ : ∃ n', n = n' + 1 := ⟨n - 1, by omega⟩
      rw [applyPatternsGreedily, hsw]

end greedy

namespace quir

/-! ## The pass ends at a block where no measurement can advance -/

theorem inversions_append (l₁ l₂ : List Operation) :
    inversions (l₁ ++ l₂) =
      inversions l₁ + inversions l₂ +
        l₁.countP (fun o => o.hasTraitCPTPOp) * l₂.countP (fun o => !o.hasTraitCPTPOp) := by
  induction l₁ with
  | nil => simp [inversions]
  | cons x xs ih =>
    cases hx : x.hasTraitCPTPOp
    · simp [inversions, ih, List.countP_append, List.countP_cons, hx]
    · simp [inversions, ih, List.countP_append, List.countP_cons, hx]
      ring

/-- Moving an operation that is not CPTP before a CPTP anchor removes an
inversion. -/
theorem inversions_move (m n : Operation) (pre skipped after : List Operation)
    (hm : m.hasTraitCPTPOp = true) (hn : n.hasTraitCPTPOp = false) :
    inversions ((pre ++ [n]) ++ m :: (skipped ++ after)) <
      inversions (pre ++ m :: (skipped ++ n :: after)) := by
  simp only [inversions_append, inversions, List.countP_append, List.countP_cons, hm, hn,
    List.countP_nil, if_true, Bool.not_true, Bool.not_false, Bool.false_eq_true, if_false]
  ring_nf
  omega

theorem inversions_movesFrom (m : Operation) (hm : m.hasTraitCPTPOp = true) :
    ∀ (k : Nat) (pre rest p r : List Operation), movesFrom m k pre rest = some (p, r) →
      inversions (p ++ m :: r) + k ≤ inversions (pre ++ m :: rest) := by
  intro k
  induction k with
  | zero =>
    intro pre rest p r h
    simp only [movesFrom, Option.some.injEq, Prod.mk.injEq] at h
    rw [h.1, h.2]
    exact Nat.le_refl _
  | succ k ih =>
    intro pre rest p r h
    cases hb : loopBody m pre rest with
    | none => simp [movesFrom, hb] at h
    | some v =>
      obtain ⟨p1, r1⟩ := v
      simp only [movesFrom, hb] at h
      obtain ⟨sk, n, af, _, h1, _, h3, h4, h5⟩ := loopBody_some m pre rest p1 r1 hb
      subst h1 h4 h5
      have hn := ((movable_iff m n).mp h3).2.1
      have h6 := inversions_move m n pre sk af hm hn
      have h7 := ih _ _ p r h
      omega

/-- A successful application of the pattern keeps the measurements CPTP and
lowers the number of inversions. -/
theorem applyPattern_lowers (block : List Operation) (i : Nat) (block' : List Operation)
    (hwf : MeasuresAreCPTP block) (h : applyPattern block i = some block') :
    MeasuresAreCPTP block' ∧ inversions block' < inversions block := by
  obtain ⟨m, pre, rest, rfl, _, hm, hres, rfl⟩ := applyPattern_some block i block' h
  constructor
  · intro op hop
    exact hwf op ((perm_matchAndRewrite m pre rest).subset hop)
  · have hcptp : m.hasTraitCPTPOp = true := hwf m (by simp) hm
    obtain ⟨k, _, hmv, _, hk⟩ := matchAndRewrite_spec m pre rest
    have := inversions_movesFrom m hcptp k pre rest _ _ hmv
    have hk0 := hk.mp hres
    unfold RewriteResult.block
    omega

theorem runOnOperation_converges (block : List Operation) (hwf : MeasuresAreCPTP block) :
    ∃ out, ∀ n, inversions block < n →
      ReorderMeasurementsPass.runOnOperation n block = some out :=
  greedy.applyPatternsGreedily_converges applyPattern MeasuresAreCPTP inversions
    (fun b i b' hb h => applyPattern_lowers b i b' hb h) (inversions block) block
    (Nat.le_refl _) hwf

/-- At a block where the pattern fails at a measurement, the scan from that
measurement finds nothing or finds an operation that blocks it. -/
theorem blocked_of_applyPattern_none (pre : List Operation) (m : Operation)
    (rest : List Operation) (hm : m.isMeasureOp = true)
    (h : applyPattern (pre ++ m :: rest) pre.length = none) :
    nextQuantumOrControlFlowOrNull rest = none ∨
      ∃ skipped nextOp after,
        nextQuantumOrControlFlowOrNull rest = some (skipped, nextOp, after) ∧
          (nextOp.hasTraitCPTPOp = true ∨ nextOp.hasTraitRegionBranch = true ∨
            opsShareQubits m nextOp = true) := by
  unfold applyPattern at h
  simp only [List.drop_left, List.take_left, hm, if_true] at h
  obtain ⟨k, _, hmv, hb, hk⟩ := matchAndRewrite_spec m pre rest
  have hfail : (matchAndRewrite m pre rest).result = LogicalResult.failure := by
    cases hres : (matchAndRewrite m pre rest).result with
    | success => simp [hres] at h
    | failure => rfl
  have hk0 : k = 0 := by
    rw [result_failure_iff, hk] at hfail
    omega
  subst hk0
  simp only [movesFrom, Option.some.injEq, Prod.mk.injEq] at hmv
  rw [← hmv.1, ← hmv.2] at hb
  rcases loopBody_none m pre rest hb with h1 | ⟨sk, n, af, h1, h2⟩
  · exact Or.inl h1
  · refine Or.inr ⟨sk, n, af, h1, ?_⟩
    simp only [blocks, Bool.and_eq_true, Bool.or_eq_true] at h2
    tauto

/-- C4, counterexample: the pass turns `[Measure(q0), Classical, Gate(q1)]` into
`[Gate(q1), Measure(q0), Classical]`, where the operation right after the
measurement shares no qubit with it and is neither CPTP nor control flow. -/
theorem reorder_maximality_counterexample :
    ReorderMeasurementsPass.runOnOperation 2 [Measure 0 [0], Classical 1, Gate 2 [1]] =
        some ([Gate 2 [1]] ++ Measure 0 [0] :: Classical 1 :: []) ∧
      (Measure 0 [0]).isMeasureOp = true ∧
      ¬ (opsShareQubits (Measure 0 [0]) (Classical 1) = true ∨
          (Classical 1).hasTraitCPTPOp = true ∨ (Classical 1).hasTraitRegionBranch = true) := by
  decide

/-- C4, amended: in the output of the pass, for every measurement the first
operation after it that is qubit-bearing or control flow is absent, or is CPTP,
or is control flow, or shares a qubit with the measurement.  When every
measurement of the input is CPTP the pass has an output: every cap from some
number on gives the same one. -/
theorem reorder_maximality :
    (∀ (maxIterations : Nat) (block out : List Operation),
      ReorderMeasurementsPass.runOnOperation maxIterations block = some out →
        ∀ (pre : List Operation) (m : Operation) (rest : List Operation),
          out = pre ++ m :: rest → m.isMeasureOp = true →
            nextQuantumOrControlFlowOrNull rest = none ∨
              ∃ skipped nextOp after,
                nextQuantumOrControlFlowOrNull rest = some (skipped, nextOp, after) ∧
                  (nextOp.hasTraitCPTPOp = true ∨ nextOp.hasTraitRegionBranch = true ∨
                    opsShareQubits m nextOp = true)) ∧
    (∀ block : List Operation, MeasuresAreCPTP block →
      ∃ N out, ∀ n, N ≤ n → ReorderMeasurementsPass.runOnOperation n block = some out) := by
  constructor
  · intro n block out hrun pre m rest hout hm
    have hfix := greedy.applyPatternsGreedily_fixpoint applyPattern n block out hrun
    have hnone := (greedy.sweep_false applyPattern out out hfix).2 pre.length
      (by rw [hout]; simp)
    rw [hout] at hnone
    exact blocked_of_applyPattern_none pre m rest hm hnone
  · intro block hwf
    obtain ⟨out, hout⟩ := runOnOperation_converges block hwf
    exact ⟨inversions block + 1, out, fun n hn => hout n (by omega)⟩

/-- After the pass on `[Measure(q0), Gate(q1), Gate(q0)]` the measurement is
followed by the gate on its qubit; the input's measurement is CPTP. -/
theorem reorder_maximality_witness :
    (nextQuantumOrControlFlowOrNull [Gate 2 [0]] = none ∨
      ∃ skipped nextOp after,
        nextQuantumOrControlFlowOrNull [Gate 2 [0]] = some (skipped, nextOp, after) ∧
          (nextOp.hasTraitCPTPOp = true ∨ nextOp.hasTraitRegionBranch = true ∨
            opsShareQubits (Measure 0 [0]) nextOp = true)) ∧
      ∃ N out, ∀ n, N ≤ n →
        ReorderMeasurementsPass.runOnOperation n [Measure 0 [0], Gate 1 [1], Gate 2 [0]] =
          some out :=
  ⟨reorder_maximality.1 2 [Measure 0 [0], Gate 1 [1], Gate 2 [0]]
      [Gate 1 [1], Measure 0 [0], Gate 2 [0]] (by decide) [Gate 1 [1]] (Measure 0 [0])
      [Gate 2 [0]] (by decide) (by decide),
    reorder_maximality.2 [Measure 0 [0], Gate 1 [1], Gate 2 [0]] (by
      intro op hop
      simp only [List.mem_cons, List.mem_singleton, List.not_mem_nil, or_false] at hop
      rcases hop with rfl | rfl | rfl <;> decide)⟩

/-! ## Running it again changes nothing -/

theorem matchAndRewrite_of_break (m : Operation) (pre rest : List Operation)
    (h : loopBody m pre rest = none) :
    matchAndRewrite m pre rest = ⟨pre, rest, LogicalResult.failure⟩ := by
  simp [matchAndRewrite, matchAndRewriteLoop, h]

/-- C5: the output of the pass is returned unchanged by the pass, under the
same cap and under any positive cap; `matchAndRewrite` applied again to the
anchor where it has just returned moves nothing and returns failure; and when
every measurement of the input is CPTP the pass has an output. -/
theorem idempotence :
    (∀ (maxIterations : Nat) (block out : List Operation),
      ReorderMeasurementsPass.runOnOperation maxIterations block = some out →
        ReorderMeasurementsPass.runOnOperation maxIterations out = some out ∧
          ∀ k, ReorderMeasurementsPass.runOnOperation (k + 1) out = some out) ∧
    (∀ (m : Operation) (pre rest : List Operation),
      matchAndRewrite m (matchAndRewrite m pre rest).pre (matchAndRewrite m pre rest).rest =
        ⟨(matchAndRewrite m pre rest).pre, (matchAndRewrite m pre rest).rest,
          LogicalResult.failure⟩) ∧
    (∀ block : List Operation, MeasuresAreCPTP block →
      ∃ N out, ∀ n, N ≤ n →
        ReorderMeasurementsPass.runOnOperation n block = some out ∧
          ReorderMeasurementsPass.runOnOperation n out = some out) := by
  have hidem : ∀ (n : Nat) (block out : List Operation),
      ReorderMeasurementsPass.runOnOperation n block = some out →
        ∀ k, ReorderMeasurementsPass.runOnOperation (k + 1) out = some out := by
    intro n block out hrun k
    exact greedy.applyPatternsGreedily_of_fixpoint applyPattern out
      (greedy.applyPatternsGreedily_fixpoint applyPattern n block out hrun) k
  refine ⟨?_, ?_, ?_⟩
  · intro n block out hrun
    refine ⟨?_, hidem n block out hrun⟩
    cases n with
    | zero => simp [ReorderMeasurementsPass.runOnOperation, greedy.applyPatternsGreedily] at hrun
    | succ n => exact hidem _ block out hrun n
  · intro m pre rest
    obtain ⟨_, _, _, hb, _⟩ := matchAndRewrite_spec m pre rest
    exact matchAndRewrite_of_break m _ _ hb
  · intro block hwf
    obtain ⟨out, hout⟩ := runOnOperation_converges block hwf
    refine ⟨inversions block + 1, out, fun n hn => ?_⟩
    have h1 := hout n (by omega)
    refine ⟨h1, ?_⟩
    obtain ⟨n', rfl⟩ : ∃ n', n = n' + 1 := ⟨n - 1, by omega⟩
    exact hidem _ block out h1 n'

/-- The pass run on its output for `[Measure(q0), Gate(q1), Gate(q0)]` returns
that output. -/
theorem idempotence_witness :
    ReorderMeasurementsPass.runOnOperation 2 [Measure 0 [0], Gate 1 [1], Gate 2 [0]] =
        some [Gate 1 [1], Measure 0 [0], Gate 2 [0]] ∧
      ReorderMeasurementsPass.runOnOperation 2 [Gate 1 [1], Measure 0 [0], Gate 2 [0]] =
        some [Gate 1 [1], Measure 0 [0], Gate 2 [0]] :=
  ⟨by decide,
    (idempotence.1 2 [Measure 0 [0], Gate 1 [1], Gate 2 [0]]
      [Gate 1 [1], Measure 0 [0], Gate 2 [0]] (by decide)).1⟩

end quir

/-! ## The closed form of the loop -/

namespace quir

theorem filter_not_isSkipped_of_skipped (sk : List Operation)
    (h : ∀ t ∈ sk, isSkipped t = true) : sk.filter (fun op => !isSkipped op) = [] := by
  rw [List.filter_eq_nil_iff]
  intro t ht
  simp [h t ht]

theorem filter_isSkipped_of_skipped (sk : List Operation)
    (h : ∀ t ∈ sk, isSkipped t = true) : sk.filter isSkipped = sk := by
  rw [List.filter_eq_self]
  exact h

theorem not_blocks_of_skipped (m : Operation) (sk : List Operation)
    (h : ∀ t ∈ sk, isSkipped t = true) : ∀ t ∈ sk, (fun op => !blocks m op) t = true := by
  intro t ht
  simp [blocks_of_isSkipped m t (h t ht)]

/-- At a break nothing of the window is left to move: the window holds skipped
operations only. -/
theorem closed_of_break (m : Operation) (pre rest : List Operation)
    (h : loopBody m pre rest = none) :
    (rest.takeWhile (fun op => !blocks m op)).filter (fun op => !isSkipped op) = [] ∧
      (rest.takeWhile (fun op => !blocks m op)).filter isSkipped ++
        rest.dropWhile (fun op => !blocks m op) = rest := by
  rcases loopBody_none m pre rest h with hq | ⟨sk, n, af, hq, hbl⟩
  · have hall := nextQuantumOrControlFlowOrNull_none rest hq
    have htw : rest.takeWhile (fun op => !blocks m op) = rest :=
      List.takeWhile_eq_self_iff.mpr (not_blocks_of_skipped m rest hall)
    have hdw : rest.dropWhile (fun op => !blocks m op) = [] :=
      List.dropWhile_eq_nil_iff.mpr (not_blocks_of_skipped m rest hall)
    rw [htw, hdw, filter_not_isSkipped_of_skipped rest hall, filter_isSkipped_of_skipped rest hall]
    simp
  · obtain ⟨hrest, hsk, _⟩ := nextQuantumOrControlFlowOrNull_some rest sk n af hq
    have htn : List.takeWhile (fun op => !blocks m op) (n :: af) = [] := by
      simp [List.takeWhile_cons, hbl]
    have hdn : List.dropWhile (fun op => !blocks m op) (n :: af) = n :: af := by
      simp [List.dropWhile_cons, hbl]
    have htw : rest.takeWhile (fun op => !blocks m op) = sk := by
      rw [hrest, List.takeWhile_append_of_pos (not_blocks_of_skipped m sk hsk), htn,
        List.append_nil]
    have hdw : rest.dropWhile (fun op => !blocks m op) = n :: af := by
      rw [hrest, List.dropWhile_append_of_pos (not_blocks_of_skipped m sk hsk), hdn]
    rw [htw, hdw, filter_not_isSkipped_of_skipped sk hsk, filter_isSkipped_of_skipped sk hsk]
    exact ⟨rfl, hrest.symm⟩

/-- A move takes the first operation of the window that is not skipped, and
leaves the other operations of the window and what follows the window. -/
theorem closed_of_move (m : Operation) (pre rest pre' rest' : List Operation)
    (h : loopBody m pre rest = some (pre', rest')) :
    ∃ n, pre' = pre ++ [n] ∧
      (rest.takeWhile (fun op => !blocks m op)).filter (fun op => !isSkipped op) =
        n :: (rest'.takeWhile (fun op => !blocks m op)).filter (fun op => !isSkipped op) ∧
      (rest.takeWhile (fun op => !blocks m op)).filter isSkipped ++
          rest.dropWhile (fun op => !blocks m op) =
        (rest'.takeWhile (fun op => !blocks m op)).filter isSkipped ++
          rest'.dropWhile (fun op => !blocks m op) := by
  obtain ⟨sk, n, af, _, h1, h2, h3, h4, h5⟩ := loopBody_some m pre rest pre' rest' h
  have hns : isSkipped n = false := ((movable_iff m n).mp h3).1
  have htn : List.takeWhile (fun op => !blocks m op) (n :: af) =
      n :: List.takeWhile (fun op => !blocks m op) af := by
    simp [List.takeWhile_cons, blocks_of_movable m n h3]
  have hdn : List.dropWhile (fun op => !blocks m op) (n :: af) =
      List.dropWhile (fun op => !blocks m op) af := by
    simp [List.dropWhile_cons, blocks_of_movable m n h3]
  have hP := not_blocks_of_skipped m sk h2
  refine ⟨n, h4, ?_, ?_⟩
  · rw [h1, h5, List.takeWhile_append_of_pos hP, List.takeWhile_append_of_pos hP, htn,
      List.filter_append, List.filter_append, filter_not_isSkipped_of_skipped sk h2]
    simp [List.filter_cons, hns]
  · rw [h1, h5, List.takeWhile_append_of_pos hP, List.takeWhile_append_of_pos hP, htn,
      List.dropWhile_append_of_pos hP, List.dropWhile_append_of_pos hP, hdn,
      List.filter_append, List.filter_append]
    simp [List.filter_cons, hns]

/-- The loop in closed form: the operations of the window that are not skipped
go before the measurement, in their order; the rest stays. -/
theorem matchAndRewriteLoop_closed (m : Operation) :
    ∀ (fuel : Nat) (pre rest : List Operation) (anyMove : Bool), rest.length < fuel →
      matchAndRewriteLoop m fuel pre rest anyMove =
        some (pre ++ (rest.takeWhile (fun op => !blocks m op)).filter (fun op => !isSkipped op),
          (rest.takeWhile (fun op => !blocks m op)).filter isSkipped ++
            rest.dropWhile (fun op => !blocks m op),
          anyMove ||
            !((rest.takeWhile (fun op => !blocks m op)).filter
              (fun op => !isSkipped op)).isEmpty) := by
  intro fuel
  induction fuel with
  | zero => intro pre rest b h; omega
  | succ fuel ih =>
    intro pre rest b h
    cases hb : loopBody m pre rest with
    | none =>
      obtain ⟨h1, h2⟩ := closed_of_break m pre rest hb
      rw [h1, h2]
      simp [matchAndRewriteLoop, hb]
    | some v =>
      obtain ⟨p1, r1⟩ := v
      obtain ⟨n, h1, h2, h3⟩ := closed_of_move m pre rest p1 r1 hb
      have hl := loopBody_length m pre rest p1 r1 hb
      rw [matchAndRewriteLoop]
      simp only [hb]
      rw [ih p1 r1 true (by omega), h2, h3, h1]
      simp

theorem matchAndRewrite_closed (m : Operation) (pre rest : List Operation) :
    (matchAndRewrite m pre rest).pre =
        pre ++ (rest.takeWhile (fun op => !blocks m op)).filter (fun op => !isSkipped op) ∧
      (matchAndRewrite m pre rest).rest =
        (rest.takeWhile (fun op => !blocks m op)).filter isSkipped ++
          rest.dropWhile (fun op => !blocks m op) := by
  unfold matchAndRewrite
  rw [matchAndRewriteLoop_closed m (rest.length + 1) pre rest false (Nat.lt_succ_self _)]
  exact ⟨rfl, rfl⟩

end quir

namespace quir

theorem opsShareQubits_of_not_quantum (m op : Operation) (h : isQuantumOp op = false) :
    opsShareQubits m op = false := by
  have hq : op.qubits = [] := by
    simpa [isQuantumOp] using h
  rw [opsShareQubits_comm]
  simp [opsShareQubits, hq]

/-- The condition of the window says that the operation does not block. -/
theorem window_condition (m op : Operation) :
    (!(isQuantumOp op && op.hasTraitCPTPOp) && !op.hasTraitRegionBranch &&
      !opsShareQubits m op) = !blocks m op := by
  cases hq : isQuantumOp op
  · have hs := opsShareQubits_of_not_quantum m op hq
    cases hc : op.hasTraitCPTPOp <;> cases hr : op.hasTraitRegionBranch <;>
      simp [blocks, isSkipped, hq, hc, hr, hs]
  · cases hc : op.hasTraitCPTPOp <;> cases hr : op.hasTraitRegionBranch <;>
      cases hs : opsShareQubits m op <;> simp [blocks, isSkipped, hq, hc, hr, hs]

theorem reorderWindow_eq (m : Operation) (rest : List Operation) :
    reorderWindow m rest = rest.takeWhile (fun op => !blocks m op) := by
  unfold reorderWindow
  congr 1
  funext op
  exact window_condition m op

/-- In the window the qubit-bearing operations are those the scan does not
skip. -/
theorem isQuantumOp_in_window (m op : Operation) (h : blocks m op = false) :
    isQuantumOp op = !isSkipped op := by
  cases hq : isQuantumOp op <;> cases hr : op.hasTraitRegionBranch <;>
    simp [blocks, isSkipped, hq, hr] at h ⊢

theorem matchAndRewrite_reorderWindow (m : Operation) (pre rest : List Operation) :
    (matchAndRewrite m pre rest).pre = pre ++ (reorderWindow m rest).filter isQuantumOp ∧
      (matchAndRewrite m pre rest).rest =
        (reorderWindow m rest).filter (fun op => !isQuantumOp op) ++
          rest.drop (reorderWindow m rest).length := by
  obtain ⟨h1, h2⟩ := matchAndRewrite_closed m pre rest
  have hmem : ∀ op ∈ rest.takeWhile (fun op => !blocks m op), blocks m op = false := by
    intro op hop
    have := List.mem_takeWhile_imp hop
    simpa using this
  have hf1 : (rest.takeWhile (fun op => !blocks m op)).filter isQuantumOp =
      (rest.takeWhile (fun op => !blocks m op)).filter (fun op => !isSkipped op) :=
    List.filter_congr (fun op hop => isQuantumOp_in_window m op (hmem op hop))
  have hf2 : (rest.takeWhile (fun op => !blocks m op)).filter (fun op => !isQuantumOp op) =
      (rest.takeWhile (fun op => !blocks m op)).filter isSkipped :=
    List.filter_congr (fun op hop => by
      rw [isQuantumOp_in_window m op (hmem op hop)]
      simp)
  have hdrop : rest.drop (rest.takeWhile (fun op => !blocks m op)).length =
      rest.dropWhile (fun op => !blocks m op) := by
    have h := List.takeWhile_append_dropWhile (fun op => !blocks m op) rest
    calc rest.drop (rest.takeWhile (fun op => !blocks m op)).length
        = (rest.takeWhile (fun op => !blocks m op) ++
            rest.dropWhile (fun op => !blocks m op)).drop
              (rest.takeWhile (fun op => !blocks m op)).length := by rw [h]
      _ = rest.dropWhile (fun op => !blocks m op) := List.drop_left _ _
  rw [reorderWindow_eq, hf1, hf2, hdrop]
  exact ⟨h1, h2⟩

/-- When every CPTP operation after the measurement is qubit-bearing, the window
of C11 is the window of the loop. -/
theorem claimedWindow_eq (m : Operation) (rest : List Operation)
    (hwf : ∀ op ∈ rest, op.hasTraitCPTPOp = true → isQuantumOp op = true) :
    claimedWindow m rest = reorderWindow m rest := by
  unfold claimedWindow reorderWindow
  induction rest with
  | nil => rfl
  | cons x xs ih =>
    have hx : (!x.hasTraitCPTPOp && !x.hasTraitRegionBranch && !opsShareQubits m x) =
        (!(isQuantumOp x && x.hasTraitCPTPOp) && !x.hasTraitRegionBranch &&
          !opsShareQubits m x) := by
      cases hc : x.hasTraitCPTPOp
      · simp
      · simp [hwf x (List.mem_cons_self _ _) hc]
    rw [List.takeWhile_cons, List.takeWhile_cons, hx,
      ih (fun op hop => hwf op (List.mem_cons_of_mem _ hop))]

/-- C11: for every block `pre ++ [m] ++ rest` in which every CPTP operation after
`m` operates on at least one qubit, with `W` the longest prefix of `rest` that
contains no CPTP operation, no control-flow operation and no operation sharing
a qubit with `m`, `matchAndRewrite` yields `pre`, then the qubit-bearing
operations of `W` in their order, then `m`, then `rest` without those
operations, the others of `W` first and then what follows `W`.  The block
`[Measure(q0), Gate(q1), Gate(q0)]` becomes `[Gate(q1), Measure(q0), Gate(q0)]`.
On every block the same holds with the window that a CPTP operation ends only
when it is qubit-bearing. -/
theorem closed_form :
    (∀ (m : Operation) (pre rest : List Operation), CPTPOpsBearQubits rest →
      (matchAndRewrite m pre rest).block m = closedForm (claimedWindow m rest) m pre rest ∧
        (matchAndRewrite m pre rest).pre = pre ++ (claimedWindow m rest).filter isQuantumOp ∧
        (matchAndRewrite m pre rest).rest =
          (claimedWindow m rest).filter (fun op => !isQuantumOp op) ++
            rest.drop (claimedWindow m rest).length) ∧
    (matchAndRewrite (Measure 0 [0]) [] [Gate 1 [1], Gate 2 [0]]).block (Measure 0 [0]) =
      [Gate 1 [1], Measure 0 [0], Gate 2 [0]] ∧
    (∀ (m : Operation) (pre rest : List Operation),
      (matchAndRewrite m pre rest).block m = closedForm (reorderWindow m rest) m pre rest) := by
  have key : ∀ (m : Operation) (pre rest : List Operation),
      (matchAndRewrite m pre rest).block m = closedForm (reorderWindow m rest) m pre rest := by
    intro m pre rest
    obtain ⟨h1, h2⟩ := matchAndRewrite_reorderWindow m pre rest
    unfold RewriteResult.block closedForm
    rw [h1, h2]
  refine ⟨?_, ?_, key⟩
  · intro m pre rest hwf
    rw [claimedWindow_eq m rest hwf]
    exact ⟨key m pre rest, matchAndRewrite_reorderWindow m pre rest⟩
  · decide

/-- On the block `[Measure(q0), Gate(q1), Classical, Gate(q2), Reset(q3), Gate(q4)]`,
whose only CPTP operation after the measurement has a qubit, the window ends at
the reset: the two gates before it are moved, the operation without qubits
stays behind the measurement. -/
theorem closed_form_witness :
    CPTPOpsBearQubits [Gate 1 [1], Classical 2, Gate 3 [2], Reset 4 [3], Gate 5 [4]] ∧
      claimedWindow (Measure 0 [0])
          [Gate 1 [1], Classical 2, Gate 3 [2], Reset 4 [3], Gate 5 [4]] =
        [Gate 1 [1], Classical 2, Gate 3 [2]] ∧
      (matchAndRewrite (Measure 0 [0]) []
          [Gate 1 [1], Classical 2, Gate 3 [2], Reset 4 [3], Gate 5 [4]]).block
          (Measure 0 [0]) =
        closedForm
          (claimedWindow (Measure 0 [0])
            [Gate 1 [1], Classical 2, Gate 3 [2], Reset 4 [3], Gate 5 [4]])
          (Measure 0 [0]) [] [Gate 1 [1], Classical 2, Gate 3 [2], Reset 4 [3], Gate 5 [4]] ∧
      closedForm
          (claimedWindow (Measure 0 [0])
            [Gate 1 [1], Classical 2, Gate 3 [2], Reset 4 [3], Gate 5 [4]])
          (Measure 0 [0]) [] [Gate 1 [1], Classical 2, Gate 3 [2], Reset 4 [3], Gate 5 [4]] =
        [Gate 1 [1], Gate 3 [2], Measure 0 [0], Classical 2, Reset 4 [3], Gate 5 [4]] :=
  ⟨by unfold CPTPOpsBearQubits; decide,
    by decide,
    (closed_form.1 (Measure 0 [0]) []
      [Gate 1 [1], Classical 2, Gate 3 [2], Reset 4 [3], Gate 5 [4]]
      (by unfold CPTPOpsBearQubits; decide)).1,
    by decide⟩

end quir

namespace quir

/-! ## Where the measurement stands when the pattern returns -/

theorem isSkipped_iff (op : Operation) :
    isSkipped op = true ↔ op.qubits = [] ∧ op.hasTraitRegionBranch = false := by
  simp [isSkipped, isQuantumOp]

theorem not_isSkipped_iff (op : Operation) :
    isSkipped op = false ↔ op.qubits ≠ [] ∨ op.hasTraitRegionBranch = true := by
  cases hr : op.hasTraitRegionBranch <;> simp [isSkipped, isQuantumOp, hr]

/-- C12: whatever the block and the anchor, when `matchAndRewrite` has returned,
either every operation after the measurement has no qubits and no control-flow
role, so that the scan finds nothing, or the operations after the measurement
are some operations without qubits and without control-flow role followed by
an operation that is qubit-bearing or control flow, the one the scan finds, and
this operation is CPTP, or control flow, or shares a qubit with the
measurement. -/
theorem local_fixpoint (m : Operation) (pre rest : List Operation) :
    (nextQuantumOrControlFlowOrNull (matchAndRewrite m pre rest).rest = none ∧
        ∀ t ∈ (matchAndRewrite m pre rest).rest,
          t.qubits = [] ∧ t.hasTraitRegionBranch = false) ∨
      ∃ skipped nextOp after,
        nextQuantumOrControlFlowOrNull (matchAndRewrite m pre rest).rest =
            some (skipped, nextOp, after) ∧
          (matchAndRewrite m pre rest).rest = skipped ++ nextOp :: after ∧
          (∀ t ∈ skipped, t.qubits = [] ∧ t.hasTraitRegionBranch = false) ∧
          (nextOp.qubits ≠ [] ∨ nextOp.hasTraitRegionBranch = true) ∧
          (nextOp.hasTraitCPTPOp = true ∨ nextOp.hasTraitRegionBranch = true ∨
            opsShareQubits m nextOp = true) := by
  obtain ⟨_, _, _, hb, _⟩ := matchAndRewrite_spec m pre rest
  rcases loopBody_none m _ _ hb with hq | ⟨sk, n, af, hq, hbl⟩
  · left
    refine ⟨hq, fun t ht => ?_⟩
    exact (isSkipped_iff t).mp (nextQuantumOrControlFlowOrNull_none _ hq t ht)
  · right
    obtain ⟨h1, h2, h3⟩ := nextQuantumOrControlFlowOrNull_some _ sk n af hq
    refine ⟨sk, n, af, hq, h1, fun t ht => (isSkipped_iff t).mp (h2 t ht),
      (not_isSkipped_iff n).mp h3, ?_⟩
    simp only [blocks, Bool.and_eq_true, Bool.or_eq_true] at hbl
    tauto

/-! ## The attribute of operated qubits -/

end quir

namespace quir

/-! ## Order of the operations that are not the anchor, pair by pair -/

end quir

/-! ## A pass with a single match -/

namespace greedy

variable {α : Type}

end greedy

/-! ## Merging two adjacent delays -/

namespace pulse

end pulse

namespace pulse

/-- Three adjacent delays on one resource set have a second mergeable pair, the
first and the third, and the pass, which repeats the rule, leaves one delay
for the three. -/
theorem three_delays_merge :
    MergeDelayPass.runOnOperation 3 [Delay 0 [0] 1, Delay 1 [0] 2, Delay 2 [0] 3] =
      some [Delay 0 [0] 6] := by
  decide

end pulse
